import Mathlib

/-!
Shallow embedding of `src/gtda/mapper/nerve.py` (the `Nerve` transformer):
the mapper-graph nerve construction, including `_generate_edge_data`,
`_fixed_points` and `fit_transform`.

Modelling conventions:
* Python lists of ints become `List Nat`; `min_intersection` (a Python int
  that may be non-positive) becomes `Int`.
* `numpy.intersect1d(a, b)` is documented to return the sorted unique values
  present in both arrays; it is modelled by `intersect1d` below.
* `igraph.Graph.contract_vertices(mapping, combine_attrs="first")` is
  documented to produce a graph on `max(mapping)+1` vertices, where new vertex
  `u` receives the attributes of the first (lowest-index) old vertex mapped to
  `u`, and every edge has its endpoints replaced by their images under
  `mapping` (edges themselves are not removed or merged).
* `igraph.Graph.delete_vertices(del)` removes the listed vertices together
  with their incident edges and renumbers the remaining vertices contiguously,
  preserving their relative order.
* The `while` loop of `_fixed_points` need not terminate on an arbitrary
  mapping, so it is embedded with explicit fuel; `none` models divergence.
  `fit_transform` supplies a fuel bound that is proved sufficient for every
  mapping actually produced by the pair scan.
* `zip(*nodes)` followed by three `next()` calls raises `StopIteration` when
  the flattened cover is empty; `fitTransform` returns `none` in that case,
  modelling that no graph is returned.
-/

namespace Nerve

/-- Model of `numpy.intersect1d`: the sorted list of unique values occurring
in both input lists. -/
def intersect1d (xs ys : List Nat) : List Nat :=
  List.insertionSort (· ≤ ·) ((xs.filter (fun x => decide (x ∈ ys))).dedup)

/-- Model of `itertools.combinations(l, 2)`: all pairs of elements of `l`
taken at increasing position pairs, in lexicographic position order. -/
def combinations2 {α : Type} : List α → List (α × α)
  | [] => []
  | x :: xs => (xs.map (fun y => (x, y))) ++ combinations2 xs

/-- The quadruple returned by `Nerve._generate_edge_data`.  `mapping` is
`none` exactly when `contract_nodes` is false (Python sets it to `None`). -/
structure EdgeData where
  node_index_pairs : List (Nat × Nat)
  weights : List Nat
  intersections : List (List Nat)
  mapping : Option (List Nat)
deriving Repr, DecidableEq

/-- The `intersection` variable of one scan iteration of
`_generate_edge_data`, for the `enumerate` pair
`pr = ((node_1_idx, node_1_elements), (node_2_idx, node_2_elements))`. -/
def interList (pr : (Nat × List Nat) × (Nat × List Nat)) : List Nat :=
  intersect1d pr.1.2 pr.2.2

/-- The `intersection_size` variable of one scan iteration. -/
def interSize (pr : (Nat × List Nat) × (Nat × List Nat)) : Nat :=
  (interList pr).length

/-- One iteration of the scan loop of `_generate_edge_data` in the
`store_edge_elements = False` branch. -/
def scanPairNoStore (min_intersection : Int) (contract_nodes : Bool)
    (st : EdgeData) (pr : (Nat × List Nat) × (Nat × List Nat)) : EdgeData :=
  if contract_nodes then
    if interSize pr = pr.2.2.length then
      { st with mapping := st.mapping.map (fun m => m.set pr.2.1 pr.1.1) }
    else if interSize pr = pr.1.2.length then
      { st with mapping := st.mapping.map (fun m => m.set pr.1.1 pr.2.1) }
    else if min_intersection ≤ (interSize pr : Int) then
      { st with node_index_pairs := st.node_index_pairs ++ [(pr.1.1, pr.2.1)],
                weights := st.weights ++ [interSize pr] }
    else st
  else if min_intersection ≤ (interSize pr : Int) then
    { st with node_index_pairs := st.node_index_pairs ++ [(pr.1.1, pr.2.1)],
              weights := st.weights ++ [interSize pr] }
  else st

/-- One iteration of the scan loop of `_generate_edge_data` in the
`store_edge_elements = True` branch (also records the intersection). -/
def scanPairStore (min_intersection : Int) (contract_nodes : Bool)
    (st : EdgeData) (pr : (Nat × List Nat) × (Nat × List Nat)) : EdgeData :=
  if contract_nodes then
    if interSize pr = pr.2.2.length then
      { st with mapping := st.mapping.map (fun m => m.set pr.2.1 pr.1.1) }
    else if interSize pr = pr.1.2.length then
      { st with mapping := st.mapping.map (fun m => m.set pr.1.1 pr.2.1) }
    else if min_intersection ≤ (interSize pr : Int) then
      { st with node_index_pairs := st.node_index_pairs ++ [(pr.1.1, pr.2.1)],
                weights := st.weights ++ [interSize pr],
                intersections := st.intersections ++ [interList pr] }
    else st
  else if min_intersection ≤ (interSize pr : Int) then
    { st with node_index_pairs := st.node_index_pairs ++ [(pr.1.1, pr.2.1)],
              weights := st.weights ++ [interSize pr],
              intersections := st.intersections ++ [interList pr] }
  else st

/-- The effect of one scan iteration on the contraction mapping; both loops
of `_generate_edge_data` update `mapping` identically. -/
def mapStep (pr : (Nat × List Nat) × (Nat × List Nat)) (m : List Nat) :
    List Nat :=
  if interSize pr = pr.2.2.length then m.set pr.2.1 pr.1.1
  else if interSize pr = pr.1.2.length then m.set pr.1.1 pr.2.1
  else m

/-- Whether one scan iteration appends an edge for the pair `pr`. -/
def edgeKeep (min_intersection : Int) (contract_nodes : Bool)
    (pr : (Nat × List Nat) × (Nat × List Nat)) : Bool :=
  if contract_nodes then
    decide (¬ interSize pr = pr.2.2.length) &&
      (decide (¬ interSize pr = pr.1.2.length) &&
        decide (min_intersection ≤ (interSize pr : Int)))
  else decide (min_intersection ≤ (interSize pr : Int))

/-- `t`-fold application of the contraction mapping (out-of-range reads
default to 0; they are never exercised on the mappings produced by the
scan). -/
def iterMap (m : List Nat) : Nat → Nat → Nat
  | 0, v => v
  | t + 1, v => iterMap m t (m.getD v 0)

/-- The contraction mapping produced by the pair scan with
`contract_nodes = True`, as a plain fold of `mapStep`. -/
def contractionMapping (node_elements : List (List Nat)) : List Nat :=
  (combinations2 (List.enum node_elements)).foldl (fun m pr => mapStep pr m)
    (List.range node_elements.length)

/-- `Nerve._generate_edge_data`: scan all index pairs of
`combinations(enumerate(node_elements), 2)` in order, threading the
accumulated edge data.  The two branches on `store_edge_elements` mirror the
two near-duplicate loops of the source. -/
def generateEdgeData (min_intersection : Int)
    (store_edge_elements contract_nodes : Bool)
    (node_elements : List (List Nat)) : EdgeData :=
  let node_tuples := combinations2 (List.enum node_elements)
  let init : EdgeData :=
    ⟨[], [], [],
      if contract_nodes then some (List.range node_elements.length) else none⟩
  if store_edge_elements then
    node_tuples.foldl (scanPairStore min_intersection contract_nodes) init
  else
    node_tuples.foldl (scanPairNoStore min_intersection contract_nodes) init

/-- The `while j != k` loop of `_fixed_points`, with explicit fuel.  Each
iteration performs `j = mapping[j]; k = mapping[mapping[j]]`; the loop exits
returning `j` once `j == k`.  Out of fuel models divergence. -/
def fpLoop (m : List Nat) : Nat → Nat → Nat → Option Nat
  | 0, j, k => if j = k then some j else none
  | fuel + 1, j, k =>
    if j = k then some j
    else fpLoop m fuel (m.getD j 0) (m.getD (m.getD (m.getD j 0) 0) 0)

/-- The `for i in range(len(mapping))` accumulation of `_fixed_points`,
collecting each terminal state in order. -/
def fixedPointsAux (m : List Nat) (fuel : Nat) : List Nat → Option (List Nat)
  | [] => some []
  | i :: rest =>
    match fpLoop m fuel i (m.getD i 0), fixedPointsAux m fuel rest with
    | some p, some tl => some (p :: tl)
    | _, _ => none

/-- `_fixed_points(mapping)`: resolve every index to the terminal state of
the loop above. -/
def fixedPoints (m : List Nat) (fuel : Nat) : Option (List Nat) :=
  fixedPointsAux m fuel (List.range m.length)

/-- Fuel supplied to `fixedPoints` by `fitTransform`; proved sufficient for
every mapping produced by the pair scan. -/
def defaultFuel (node_elements : List (List Nat)) : Nat :=
  ((node_elements.map List.length).foldr max 0 + 1) * node_elements.length + 2

/-- An edge of the output igraph object: endpoints, the `weight` attribute,
and the optional `edge_elements` attribute. -/
@[ext]
structure Edge where
  src : Nat
  tgt : Nat
  weight : Nat
  edge_elements : Option (List Nat)
deriving Repr, DecidableEq

/-- The observable part of the igraph object built by `fit_transform`:
per-vertex attribute lists (attributes may be unset, hence `Option`) and the
edge list.  Vertices are `0, ..., numVertices - 1`. -/
@[ext]
structure Graph where
  numVertices : Nat
  pullback_set_label : List (Option Nat)
  partial_cluster_label : List (Option Nat)
  node_elements : List (Option (List Nat))
  edges : List Edge
deriving Repr, DecidableEq

/-- `igraph.Graph.contract_vertices(mapping, combine_attrs="first")`: the new
graph has `max(mapping) + 1` vertices; new vertex `u` gets the attributes of
the first old vertex `v` (in increasing `v`) with `mapping[v] == u` (or unset
attributes when no old vertex maps to `u`); each edge has its endpoints
replaced by their images under `mapping`. -/
def contractVertices (g : Graph) (mapping : List Nat) : Graph :=
  let newCount := if mapping.isEmpty then 0 else mapping.foldr max 0 + 1
  let group := fun (u : Nat) =>
    (List.range g.numVertices).filter (fun v => decide (mapping.getD v 0 = u))
  { numVertices := newCount
    pullback_set_label := (List.range newCount).map (fun u =>
      ((group u).head?).bind (fun v => g.pullback_set_label.getD v none))
    partial_cluster_label := (List.range newCount).map (fun u =>
      ((group u).head?).bind (fun v => g.partial_cluster_label.getD v none))
    node_elements := (List.range newCount).map (fun u =>
      ((group u).head?).bind (fun v => g.node_elements.getD v none))
    edges := g.edges.map (fun e =>
      { e with src := mapping.getD e.src 0, tgt := mapping.getD e.tgt 0 }) }

/-- `igraph.Graph.delete_vertices(del)`: drop the listed vertices and their
incident edges; remaining vertices are renumbered contiguously in their
original relative order. -/
def deleteVertices (g : Graph) (del : List Nat) : Graph :=
  let keep := (List.range g.numVertices).filter (fun i => decide (¬ i ∈ del))
  { numVertices := keep.length
    pullback_set_label := keep.map (fun i => g.pullback_set_label.getD i none)
    partial_cluster_label := keep.map (fun i => g.partial_cluster_label.getD i none)
    node_elements := keep.map (fun i => g.node_elements.getD i none)
    edges := (g.edges.filter (fun e =>
        decide (e.src ∈ keep) && decide (e.tgt ∈ keep))).map
      (fun e => { e with src := keep.indexOf e.src, tgt := keep.indexOf e.tgt }) }

/-- `reduce(iconcat, X, [])`: flatten the cover into the ordered list of
`(pullback_set_label, partial_cluster_label, node_elements)` triples. -/
def nerveNodes (X : List (List (Nat × Nat × List Nat))) :
    List (Nat × Nat × List Nat) :=
  X.foldl (fun acc l => acc ++ l) []

/-- The graph built by `fit_transform` before the optional contraction pass:
vertices with the three attribute lists, edges from `_generate_edge_data`
(with the `weight` attribute, and the `edge_elements` attribute exactly when
`store_edge_elements` is true). -/
def nervePregraph (min_intersection : Int)
    (store_edge_elements contract_nodes : Bool)
    (X : List (List (Nat × Nat × List Nat))) : Graph :=
  let nodes := nerveNodes X
  let node_elements := nodes.map (fun t => t.2.2)
  let ed := generateEdgeData min_intersection store_edge_elements
    contract_nodes node_elements
  let edges : List Edge :=
    if store_edge_elements then
      (ed.node_index_pairs.zip (ed.weights.zip ed.intersections)).map
        (fun pwi =>
          { src := pwi.1.1, tgt := pwi.1.2, weight := pwi.2.1,
            edge_elements := some pwi.2.2 })
    else
      (ed.node_index_pairs.zip ed.weights).map
        (fun pw =>
          { src := pw.1.1, tgt := pw.1.2, weight := pw.2,
            edge_elements := none })
  { numVertices := nodes.length
    pullback_set_label := nodes.map (fun t => some t.1)
    partial_cluster_label := nodes.map (fun t => some t.2.1)
    node_elements := node_elements.map some
    edges := edges }

/-- `Nerve.fit_transform(X)`.  Returns `none` when the Python code returns no
graph: the empty-cover `StopIteration` at the `zip(*nodes)` attribute reads,
or divergence of the `_fixed_points` loop. -/
def fitTransform (min_intersection : Int)
    (store_edge_elements contract_nodes : Bool)
    (X : List (List (Nat × Nat × List Nat))) : Option Graph :=
  let nodes := nerveNodes X
  if nodes.isEmpty then none
  else
    let node_elements := nodes.map (fun t => t.2.2)
    let graph := nervePregraph min_intersection store_edge_elements
      contract_nodes X
    if contract_nodes then
      match (generateEdgeData min_intersection store_edge_elements
          contract_nodes node_elements).mapping with
      | none => none
      | some m =>
        match fixedPoints m (defaultFuel node_elements) with
        | none => none
        | some fpm =>
          let contracted := contractVertices graph fpm
          let del := (List.range contracted.numVertices).filter
            (fun i => decide (¬ i = fpm.getD i 0))
          some (deleteVertices contracted del)
    else some graph

/-- The edge list of an optional graph (empty when no graph was returned). -/
def optEdges (og : Option Graph) : List Edge :=
  match og with
  | some g => g.edges
  | none => []

/-- Forget the `edge_elements` attribute of every edge of a graph. -/
def eraseEdgeElements (g : Graph) : Graph :=
  { g with edges := g.edges.map (fun e => { e with edge_elements := none }) }

/-- The vertices kept by the contraction pass: indices below `n` that are
fixed points of the resolved mapping. -/
def survivors (n : Nat) (fpm : List Nat) : List Nat :=
  (List.range n).filter (fun v => decide (fpm.getD v 0 = v))

/-! ### Properties of `intersect1d` -/

theorem intersect1d_nodup (xs ys : List Nat) : (intersect1d xs ys).Nodup :=
  (List.perm_insertionSort _ _).nodup_iff.mpr (List.nodup_dedup _)

theorem mem_intersect1d {xs ys : List Nat} {x : Nat} :
    x ∈ intersect1d xs ys ↔ x ∈ xs ∧ x ∈ ys := by
  unfold intersect1d
  rw [(List.perm_insertionSort _ _).mem_iff, List.mem_dedup, List.mem_filter]
  simp

theorem intersect1d_toFinset (xs ys : List Nat) :
    (intersect1d xs ys).toFinset = xs.toFinset ∩ ys.toFinset := by
  ext a
  simp [mem_intersect1d]

theorem intersect1d_length (xs ys : List Nat) :
    (intersect1d xs ys).length = (xs.toFinset ∩ ys.toFinset).card := by
  rw [← intersect1d_toFinset,
    List.toFinset_card_of_nodup (intersect1d_nodup xs ys)]

theorem size_eq_right_iff {xs ys : List Nat} (hy : ys.Nodup) :
    (intersect1d xs ys).length = ys.length ↔ ys.toFinset ⊆ xs.toFinset := by
  rw [intersect1d_length, ← List.toFinset_card_of_nodup hy]
  constructor
  · intro h
    exact Finset.inter_eq_right.mp
      (Finset.eq_of_subset_of_card_le Finset.inter_subset_right (le_of_eq h.symm))
  · intro h
    rw [Finset.inter_eq_right.mpr h]

theorem size_eq_left_iff {xs ys : List Nat} (hx : xs.Nodup) :
    (intersect1d xs ys).length = xs.length ↔ xs.toFinset ⊆ ys.toFinset := by
  rw [intersect1d_length, ← List.toFinset_card_of_nodup hx]
  constructor
  · intro h
    exact Finset.inter_eq_left.mp
      (Finset.eq_of_subset_of_card_le Finset.inter_subset_left (le_of_eq h.symm))
  · intro h
    rw [Finset.inter_eq_left.mpr h]

/-! ### Properties of `enumFrom` and `combinations2` -/

theorem mem_enumFrom_bounds {α : Type} {k : Nat} {l : List α} {y : Nat × α}
    (h : y ∈ l.enumFrom k) : k ≤ y.1 ∧ y.1 < k + l.length := by
  obtain ⟨i, a⟩ := y
  obtain ⟨h1, h2⟩ := List.mk_mem_enumFrom_iff_le_and_getElem?_sub.mp h
  refine ⟨h1, ?_⟩
  by_contra hge
  rw [List.getElem?_eq_none (by omega)] at h2
  exact Option.noConfusion h2

theorem mem_enumFrom_getD {α : Type} {k : Nat} {l : List α} {y : Nat × α}
    (d : α) (h : y ∈ l.enumFrom k) : l.getD (y.1 - k) d = y.2 := by
  obtain ⟨i, a⟩ := y
  obtain ⟨h1, h2⟩ := List.mk_mem_enumFrom_iff_le_and_getElem?_sub.mp h
  rw [List.getD_eq_getElem?_getD, h2]
  rfl

theorem getD_mem_enumFrom {α : Type} {l : List α} (k i : Nat) (d : α)
    (h : i < l.length) : (k + i, l.getD i d) ∈ l.enumFrom k := by
  rw [List.mk_mem_enumFrom_iff_le_and_getElem?_sub]
  refine ⟨Nat.le_add_right _ _, ?_⟩
  have hik : k + i - k = i := by omega
  rw [hik, List.getElem?_eq_getElem h, List.getD_eq_getElem l d h]

theorem mem_combinations2_enumFrom {α : Type} {k : Nat} {l : List α}
    {p : (Nat × α) × (Nat × α)} (h : p ∈ combinations2 (l.enumFrom k)) :
    k ≤ p.1.1 ∧ p.1.1 < p.2.1 ∧ p.2.1 < k + l.length ∧
      p.1 ∈ l.enumFrom k ∧ p.2 ∈ l.enumFrom k := by
  induction l generalizing k with
  | nil => simp [combinations2] at h
  | cons x xs ih =>
    rw [List.enumFrom_cons] at h
    simp only [combinations2, List.mem_append, List.mem_map] at h
    rcases h with ⟨y, hy, hp⟩ | h
    · obtain ⟨hy1, hy2⟩ := mem_enumFrom_bounds hy
      subst hp
      refine ⟨Nat.le_refl _, show k < y.1 by omega,
        show y.1 < k + (x :: xs).length by simp; omega, ?_, ?_⟩
      · rw [List.enumFrom_cons]; exact List.mem_cons_self _ _
      · rw [List.enumFrom_cons]; exact List.mem_cons_of_mem _ hy
    · obtain ⟨h1, h2, h3, h4, h5⟩ := ih h
      refine ⟨by omega, h2, by simp; omega, ?_, ?_⟩
      · rw [List.enumFrom_cons]; exact List.mem_cons_of_mem _ h4
      · rw [List.enumFrom_cons]; exact List.mem_cons_of_mem _ h5

theorem combinations2_enumFrom_complete {α : Type} (d : α) :
    ∀ (l : List α) (k i j : Nat), i < j → j < l.length →
      ((k + i, l.getD i d), (k + j, l.getD j d)) ∈
        combinations2 (l.enumFrom k) := by
  intro l
  induction l with
  | nil => intro k i j hij hj; simp at hj
  | cons x xs ih =>
    intro k i j hij hj
    rw [List.enumFrom_cons]
    simp only [combinations2, List.mem_append, List.mem_map]
    obtain ⟨j', rfl⟩ : ∃ j', j = j' + 1 := ⟨j - 1, by omega⟩
    cases i with
    | zero =>
      left
      refine ⟨(k + (j' + 1), xs.getD j' d), ?_, ?_⟩
      · have hmem := getD_mem_enumFrom (l := xs) (k + 1) j' d
          (by simp at hj; omega)
        have harith : k + 1 + j' = k + (j' + 1) := by omega
        rw [harith] at hmem
        simpa using hmem
      · simp
    | succ i' =>
      right
      have hmem := ih (k + 1) i' j' (by omega) (by simp at hj; omega)
      have ha1 : k + 1 + i' = k + (i' + 1) := by omega
      have ha2 : k + 1 + j' = k + (j' + 1) := by omega
      rw [ha1, ha2] at hmem
      simpa using hmem

theorem combinations2_enumFrom_idx_nodup {α : Type} :
    ∀ (l : List α) (k : Nat),
      ((combinations2 (l.enumFrom k)).map
        (fun p => (p.1.1, p.2.1))).Nodup := by
  intro l
  induction l with
  | nil => intro k; simp [combinations2]
  | cons x xs ih =>
    intro k
    rw [List.enumFrom_cons]
    simp only [combinations2, List.map_append]
    rw [List.nodup_append]
    refine ⟨?_, ih (k + 1), ?_⟩
    · rw [List.map_map]
      have hfst : ((xs.enumFrom (k + 1)).map
          (fun y => ((fun p => (p.1.1, p.2.1)) ∘ fun y => ((k, x), y)) y)) =
          ((xs.enumFrom (k + 1)).map Prod.fst).map (fun j => (k, j)) := by
        rw [List.map_map]; rfl
      rw [hfst, List.enumFrom_map_fst]
      exact (List.nodup_range' _ _).map (fun a b hab => by
        simpa using congrArg Prod.snd hab)
    · intro a ha hb
      simp only [List.map_map, List.mem_map, Function.comp] at ha
      obtain ⟨y, hy, rfl⟩ := ha
      simp only [List.mem_map] at hb
      obtain ⟨p, hp, hpe⟩ := hb
      have := (mem_combinations2_enumFrom hp).1
      have hk := congrArg Prod.fst hpe
      simp at hk
      omega

/-! ### Decomposition of the scan into independent components -/

theorem scanPairNoStore_mapping_eq (mi : Int) (st : EdgeData) (pr) :
    (scanPairNoStore mi true st pr).mapping = st.mapping.map (mapStep pr) := by
  unfold scanPairNoStore mapStep
  split_ifs <;> simp_all

theorem scanPairStore_mapping_eq (mi : Int) (st : EdgeData) (pr) :
    (scanPairStore mi true st pr).mapping = st.mapping.map (mapStep pr) := by
  unfold scanPairStore mapStep
  split_ifs <;> simp_all

theorem scanPairNoStore_mapping_false (mi : Int) (st : EdgeData) (pr) :
    (scanPairNoStore mi false st pr).mapping = st.mapping := by
  unfold scanPairNoStore
  split_ifs <;> simp_all

theorem scanPairStore_mapping_false (mi : Int) (st : EdgeData) (pr) :
    (scanPairStore mi false st pr).mapping = st.mapping := by
  unfold scanPairStore
  split_ifs <;> simp_all

theorem scanPairNoStore_pairs_eq (mi : Int) (cn : Bool) (st : EdgeData) (pr) :
    (scanPairNoStore mi cn st pr).node_index_pairs = st.node_index_pairs ++
      (if edgeKeep mi cn pr then [(pr.1.1, pr.2.1)] else []) := by
  unfold scanPairNoStore edgeKeep
  cases cn <;> simp only [Bool.false_eq_true, if_false, if_true] <;>
    split_ifs <;> simp_all <;> omega

theorem scanPairStore_pairs_eq (mi : Int) (cn : Bool) (st : EdgeData) (pr) :
    (scanPairStore mi cn st pr).node_index_pairs = st.node_index_pairs ++
      (if edgeKeep mi cn pr then [(pr.1.1, pr.2.1)] else []) := by
  unfold scanPairStore edgeKeep
  cases cn <;> simp only [Bool.false_eq_true, if_false, if_true] <;>
    split_ifs <;> simp_all <;> omega

theorem scanPairNoStore_weights_eq (mi : Int) (cn : Bool) (st : EdgeData) (pr) :
    (scanPairNoStore mi cn st pr).weights = st.weights ++
      (if edgeKeep mi cn pr then [interSize pr] else []) := by
  unfold scanPairNoStore edgeKeep
  cases cn <;> simp only [Bool.false_eq_true, if_false, if_true] <;>
    split_ifs <;> simp_all <;> omega

theorem scanPairStore_weights_eq (mi : Int) (cn : Bool) (st : EdgeData) (pr) :
    (scanPairStore mi cn st pr).weights = st.weights ++
      (if edgeKeep mi cn pr then [interSize pr] else []) := by
  unfold scanPairStore edgeKeep
  cases cn <;> simp only [Bool.false_eq_true, if_false, if_true] <;>
    split_ifs <;> simp_all <;> omega

theorem scanPairNoStore_inters_eq (mi : Int) (cn : Bool) (st : EdgeData) (pr) :
    (scanPairNoStore mi cn st pr).intersections = st.intersections := by
  unfold scanPairNoStore
  cases cn <;> simp only [Bool.false_eq_true, if_false, if_true] <;>
    split_ifs <;> simp_all

theorem scanPairStore_inters_eq (mi : Int) (cn : Bool) (st : EdgeData) (pr) :
    (scanPairStore mi cn st pr).intersections = st.intersections ++
      (if edgeKeep mi cn pr then [interList pr] else []) := by
  unfold scanPairStore edgeKeep
  cases cn <;> simp only [Bool.false_eq_true, if_false, if_true] <;>
    split_ifs <;> simp_all <;> omega

theorem foldl_scan_mapping_true
    (step : EdgeData → (Nat × List Nat) × (Nat × List Nat) → EdgeData)
    (hstep : ∀ st pr, (step st pr).mapping = st.mapping.map (mapStep pr)) :
    ∀ (l : List ((Nat × List Nat) × (Nat × List Nat))) (st : EdgeData),
      (l.foldl step st).mapping =
        st.mapping.map (fun m => l.foldl (fun m pr => mapStep pr m) m) := by
  intro l
  induction l with
  | nil => intro st; simp
  | cons pr l ih =>
    intro st
    rw [List.foldl_cons, ih, hstep, Option.map_map]
    rfl

theorem foldl_scan_pairs (mi : Int) (cn : Bool)
    (step : EdgeData → (Nat × List Nat) × (Nat × List Nat) → EdgeData)
    (hstep : ∀ st pr, (step st pr).node_index_pairs = st.node_index_pairs ++
      (if edgeKeep mi cn pr then [(pr.1.1, pr.2.1)] else [])) :
    ∀ (l : List ((Nat × List Nat) × (Nat × List Nat))) (st : EdgeData),
      (l.foldl step st).node_index_pairs = st.node_index_pairs ++
        (l.filter (edgeKeep mi cn)).map (fun pr => (pr.1.1, pr.2.1)) := by
  intro l
  induction l with
  | nil => intro st; simp
  | cons pr l ih =>
    intro st
    rw [List.foldl_cons, ih, hstep, List.filter_cons]
    by_cases h : edgeKeep mi cn pr <;> simp [h]

theorem foldl_scan_weights (mi : Int) (cn : Bool)
    (step : EdgeData → (Nat × List Nat) × (Nat × List Nat) → EdgeData)
    (hstep : ∀ st pr, (step st pr).weights = st.weights ++
      (if edgeKeep mi cn pr then [interSize pr] else [])) :
    ∀ (l : List ((Nat × List Nat) × (Nat × List Nat))) (st : EdgeData),
      (l.foldl step st).weights = st.weights ++
        (l.filter (edgeKeep mi cn)).map interSize := by
  intro l
  induction l with
  | nil => intro st; simp
  | cons pr l ih =>
    intro st
    rw [List.foldl_cons, ih, hstep, List.filter_cons]
    by_cases h : edgeKeep mi cn pr <;> simp [h]

theorem foldl_scan_inters (mi : Int) (cn : Bool)
    (step : EdgeData → (Nat × List Nat) × (Nat × List Nat) → EdgeData)
    (hstep : ∀ st pr, (step st pr).intersections = st.intersections ++
      (if edgeKeep mi cn pr then [interList pr] else [])) :
    ∀ (l : List ((Nat × List Nat) × (Nat × List Nat))) (st : EdgeData),
      (l.foldl step st).intersections = st.intersections ++
        (l.filter (edgeKeep mi cn)).map interList := by
  intro l
  induction l with
  | nil => intro st; simp
  | cons pr l ih =>
    intro st
    rw [List.foldl_cons, ih, hstep, List.filter_cons]
    by_cases h : edgeKeep mi cn pr <;> simp [h]

/-- The pair list produced by `_generate_edge_data` does not depend on
`store_edge_elements`: it is the filtered pair scan. -/
theorem generateEdgeData_pairs (mi : Int) (store cn : Bool)
    (ne : List (List Nat)) :
    (generateEdgeData mi store cn ne).node_index_pairs =
      ((combinations2 (List.enum ne)).filter (edgeKeep mi cn)).map
        (fun pr => (pr.1.1, pr.2.1)) := by
  unfold generateEdgeData
  cases store <;> simp only [Bool.false_eq_true, if_false, if_true]
  · rw [foldl_scan_pairs mi cn _
      (scanPairNoStore_pairs_eq mi cn) _ _]
    rfl
  · rw [foldl_scan_pairs mi cn _
      (scanPairStore_pairs_eq mi cn) _ _]
    rfl

/-- The weight list produced by `_generate_edge_data` does not depend on
`store_edge_elements`. -/
theorem generateEdgeData_weights (mi : Int) (store cn : Bool)
    (ne : List (List Nat)) :
    (generateEdgeData mi store cn ne).weights =
      ((combinations2 (List.enum ne)).filter (edgeKeep mi cn)).map interSize := by
  unfold generateEdgeData
  cases store <;> simp only [Bool.false_eq_true, if_false, if_true]
  · rw [foldl_scan_weights mi cn _
      (scanPairNoStore_weights_eq mi cn) _ _]
    rfl
  · rw [foldl_scan_weights mi cn _
      (scanPairStore_weights_eq mi cn) _ _]
    rfl

theorem generateEdgeData_inters_store (mi : Int) (cn : Bool)
    (ne : List (List Nat)) :
    (generateEdgeData mi true cn ne).intersections =
      ((combinations2 (List.enum ne)).filter (edgeKeep mi cn)).map interList := by
  unfold generateEdgeData
  simp only [if_true]
  rw [foldl_scan_inters mi cn _
    (scanPairStore_inters_eq mi cn) _ _]
  rfl

/-- With `contract_nodes = True` the returned mapping is the `mapStep` fold
over the pair scan, regardless of `store_edge_elements`. -/
theorem generateEdgeData_mapping_true (mi : Int) (store : Bool)
    (ne : List (List Nat)) :
    (generateEdgeData mi store true ne).mapping =
      some (contractionMapping ne) := by
  unfold generateEdgeData contractionMapping
  cases store <;> simp only [Bool.false_eq_true, if_false, if_true]
  · rw [foldl_scan_mapping_true _ (scanPairNoStore_mapping_eq mi) _ _]
    rfl
  · rw [foldl_scan_mapping_true _ (scanPairStore_mapping_eq mi) _ _]
    rfl

theorem generateEdgeData_mapping_false (mi : Int) (store : Bool)
    (ne : List (List Nat)) :
    (generateEdgeData mi store false ne).mapping = none := by
  unfold generateEdgeData
  cases store <;> simp only [Bool.false_eq_true, if_false, if_true]
  · have : ∀ (l : List ((Nat × List Nat) × (Nat × List Nat))) (st : EdgeData),
        (l.foldl (scanPairNoStore mi false) st).mapping = st.mapping := by
      intro l
      induction l with
      | nil => intro st; rfl
      | cons pr l ih =>
        intro st
        rw [List.foldl_cons, ih, scanPairNoStore_mapping_false]
    rw [this]
  · have : ∀ (l : List ((Nat × List Nat) × (Nat × List Nat))) (st : EdgeData),
        (l.foldl (scanPairStore mi false) st).mapping = st.mapping := by
      intro l
      induction l with
      | nil => intro st; rfl
      | cons pr l ih =>
        intro st
        rw [List.foldl_cons, ih, scanPairStore_mapping_false]
    rw [this]

/-! ### The contraction-mapping invariant -/

theorem getD_set_ne {l : List Nat} {i j : Nat} (a d : Nat) (h : ¬ i = j) :
    (l.set i a).getD j d = l.getD j d := by
  rw [List.getD_eq_getElem?_getD, List.getD_eq_getElem?_getD,
    List.getElem?_set_ne h]

theorem getD_set_self {l : List Nat} {i : Nat} (a d : Nat)
    (h : i < l.length) : (l.set i a).getD i d = a := by
  rw [List.getD_eq_getElem?_getD, List.getElem?_set_self h]
  rfl

theorem getD_mem {α : Type} {l : List α} {i : Nat} (d : α)
    (h : i < l.length) : l.getD i d ∈ l := by
  rw [List.getD_eq_getElem l d h]
  exact List.getElem_mem h

/-- Invariant maintained by the contraction mapping during the pair scan,
for duplicate-free element lists: every entry is the identity or points to
another in-range vertex whose element set contains this vertex's element
set, strictly so when it points to a higher index. -/
def MappingInv (ne : List (List Nat)) (m : List Nat) : Prop :=
  m.length = ne.length ∧ ∀ v, v < m.length →
    m.getD v 0 = v ∨
      (m.getD v 0 < m.length ∧ ¬ m.getD v 0 = v ∧
        (ne.getD v []).toFinset ⊆ (ne.getD (m.getD v 0) []).toFinset ∧
        (v < m.getD v 0 →
          (ne.getD v []).toFinset ⊂ (ne.getD (m.getD v 0) []).toFinset))

theorem mappingInv_init (ne : List (List Nat)) :
    MappingInv ne (List.range ne.length) := by
  refine ⟨List.length_range _, ?_⟩
  intro v hv
  left
  rw [List.length_range] at hv
  rw [List.getD_eq_getElem _ 0 (by simpa using hv), List.getElem_range]

theorem mapStep_inv {ne : List (List Nat)} (hnd : ∀ l ∈ ne, l.Nodup)
    {m : List Nat} (hm : MappingInv ne m)
    {pr : (Nat × List Nat) × (Nat × List Nat)}
    (hpr : pr ∈ combinations2 (List.enum ne)) :
    MappingInv ne (mapStep pr m) := by
  obtain ⟨hmlen, hinv⟩ := hm
  obtain ⟨-, hij, hjn, hp1, hp2⟩ := mem_combinations2_enumFrom hpr
  have he1 : ne.getD pr.1.1 [] = pr.1.2 := by
    have := mem_enumFrom_getD [] hp1
    simpa using this
  have he2 : ne.getD pr.2.1 [] = pr.2.2 := by
    have := mem_enumFrom_getD [] hp2
    simpa using this
  have hjn' : pr.2.1 < ne.length := by simpa using hjn
  have hin' : pr.1.1 < ne.length := by omega
  have hnd1 : pr.1.2.Nodup := he1 ▸ hnd _ (getD_mem [] hin')
  have hnd2 : pr.2.2.Nodup := he2 ▸ hnd _ (getD_mem [] hjn')
  unfold mapStep
  split_ifs with h1 h2
  · -- mapping[node_2_idx] = node_1_idx
    refine ⟨by rw [List.length_set, hmlen], ?_⟩
    intro v hv
    rw [List.length_set] at hv
    by_cases hvj : pr.2.1 = v
    · subst hvj
      right
      have hset : (m.set pr.2.1 pr.1.1).getD pr.2.1 0 = pr.1.1 :=
        getD_set_self _ _ (by omega)
      rw [List.length_set, hset]
      have hsub : pr.2.2.toFinset ⊆ pr.1.2.toFinset :=
        (size_eq_right_iff hnd2).mp h1
      rw [he1, he2]
      exact ⟨by omega, by omega, hsub, fun hlt => absurd hlt (by omega)⟩
    · rw [List.length_set, getD_set_ne _ _ hvj]
      exact hinv v hv
  · -- mapping[node_1_idx] = node_2_idx
    refine ⟨by rw [List.length_set, hmlen], ?_⟩
    intro v hv
    rw [List.length_set] at hv
    by_cases hvi : pr.1.1 = v
    · subst hvi
      right
      have hset : (m.set pr.1.1 pr.2.1).getD pr.1.1 0 = pr.2.1 :=
        getD_set_self _ _ (by omega)
      rw [List.length_set, hset]
      have hsub : pr.1.2.toFinset ⊆ pr.2.2.toFinset :=
        (size_eq_left_iff hnd1).mp h2
      have hssub : pr.1.2.toFinset ⊂ pr.2.2.toFinset := by
        rw [Finset.ssubset_iff_subset_ne]
        refine ⟨hsub, fun heq => h1 ?_⟩
        unfold interSize interList
        rw [intersect1d_length, heq, Finset.inter_self,
          List.toFinset_card_of_nodup hnd2]
      rw [he1, he2]
      exact ⟨by omega, by omega, hsub, fun _ => hssub⟩
    · rw [List.length_set, getD_set_ne _ _ hvi]
      exact hinv v hv
  · exact ⟨hmlen, hinv⟩

theorem foldl_mapStep_inv {ne : List (List Nat)} (hnd : ∀ l ∈ ne, l.Nodup) :
    ∀ (l : List ((Nat × List Nat) × (Nat × List Nat))),
      (∀ pr ∈ l, pr ∈ combinations2 (List.enum ne)) →
      ∀ m, MappingInv ne m →
        MappingInv ne (l.foldl (fun m pr => mapStep pr m) m) := by
  intro l
  induction l with
  | nil => intro _ m hm; exact hm
  | cons pr l ih =>
    intro hmem m hm
    rw [List.foldl_cons]
    exact ih (fun q hq => hmem q (List.mem_cons_of_mem _ hq))
      _ (mapStep_inv hnd hm (hmem pr (List.mem_cons_self _ _)))

theorem contractionMapping_inv (ne : List (List Nat))
    (hnd : ∀ l ∈ ne, l.Nodup) : MappingInv ne (contractionMapping ne) :=
  foldl_mapStep_inv hnd _ (fun _ hq => hq) _ (mappingInv_init ne)

theorem contractionMapping_length (ne : List (List Nat))
    (hnd : ∀ l ∈ ne, l.Nodup) :
    (contractionMapping ne).length = ne.length :=
  (contractionMapping_inv ne hnd).1

/-- C10: for duplicate-free `node_elements` and `contract_nodes = True`, the
mapping returned by `_generate_edge_data` points along set inclusion: a
non-fixed vertex's element set is a subset of its image's element set, and a
vertex whose element set equals its image's is mapped to a lower index. -/
theorem nerve_C10_mapping_inclusion (mi : Int) (store : Bool)
    (ne : List (List Nat)) (hnd : ∀ l ∈ ne, l.Nodup) (m : List Nat)
    (hm : (generateEdgeData mi store true ne).mapping = some m)
    (v : Nat) (hv : v < m.length) (hvm : ¬ m.getD v 0 = v) :
    (ne.getD v []).toFinset ⊆ (ne.getD (m.getD v 0) []).toFinset ∧
      ((ne.getD v []).toFinset = (ne.getD (m.getD v 0) []).toFinset →
        m.getD v 0 < v) := by
  rw [generateEdgeData_mapping_true] at hm
  obtain rfl : contractionMapping ne = m := Option.some.inj hm
  rcases (contractionMapping_inv ne hnd).2 v hv with h | ⟨-, -, hsub, hstrict⟩
  · exact absurd h hvm
  · refine ⟨hsub, fun heq => ?_⟩
    rcases Nat.lt_trichotomy (contractionMapping ne |>.getD v 0) v with h | h | h
    · exact h
    · exact absurd h hvm
    · exact absurd heq (Finset.ssubset_iff_subset_ne.mp (hstrict h)).2

theorem nerve_C10_mapping_inclusion_witness :
    (([[1, 2], [1, 2, 3]] : List (List Nat)).getD 0 []).toFinset ⊆
      (([[1, 2], [1, 2, 3]] : List (List Nat)).getD
        (([1, 1] : List Nat).getD 0 0) []).toFinset ∧
      ((([[1, 2], [1, 2, 3]] : List (List Nat)).getD 0 []).toFinset =
        (([[1, 2], [1, 2, 3]] : List (List Nat)).getD
          (([1, 1] : List Nat).getD 0 0) []).toFinset →
        ([1, 1] : List Nat).getD 0 0 < 0) :=
  nerve_C10_mapping_inclusion 1 false [[1, 2], [1, 2, 3]]
    (by decide) [1, 1] (by decide) 0 (by decide) (by decide)

/-! ### Termination of the fixed-point resolution -/

/-- Upper bound on the element-list lengths (hence set cardinalities). -/
def elemBound (ne : List (List Nat)) : Nat :=
  (ne.map List.length).foldr max 0

theorem defaultFuel_eq (ne : List (List Nat)) :
    defaultFuel ne = (elemBound ne + 1) * ne.length + 2 := rfl

theorem le_foldr_max : ∀ {l : List Nat} {x : Nat}, x ∈ l → x ≤ l.foldr max 0 := by
  intro l
  induction l with
  | nil => intro x hx; simp at hx
  | cons a l ih =>
    intro x hx
    rcases List.mem_cons.mp hx with rfl | hx
    · exact le_max_left _ _
    · exact le_trans (ih hx) (le_max_right _ _)

theorem card_le_elemBound {ne : List (List Nat)} {v : Nat}
    (h : v < ne.length) : (ne.getD v []).toFinset.card ≤ elemBound ne :=
  le_trans (List.toFinset_card_le _)
    (le_foldr_max (List.mem_map_of_mem List.length (getD_mem [] h)))

/-- Strictly decreasing measure along the contraction walk. -/
def mu (ne : List (List Nat)) (v : Nat) : Nat :=
  (elemBound ne - (ne.getD v []).toFinset.card) * ne.length + v

theorem mu_step_lt {ne : List (List Nat)} {m : List Nat}
    (hinv : MappingInv ne m) {v : Nat} (hv : v < m.length)
    (hnfix : ¬ m.getD v 0 = v) : mu ne (m.getD v 0) < mu ne v := by
  obtain ⟨hlen, hi⟩ := hinv
  rcases hi v hv with h | ⟨hw, -, hsub, hstrict⟩
  · exact absurd h hnfix
  have hwn : m.getD v 0 < ne.length := by omega
  have hvn : v < ne.length := by omega
  have hcw : (ne.getD (m.getD v 0) []).toFinset.card ≤ elemBound ne :=
    card_le_elemBound hwn
  rcases Nat.lt_or_ge (m.getD v 0) v with hlt | hge
  · have hcc : (ne.getD v []).toFinset.card ≤
        (ne.getD (m.getD v 0) []).toFinset.card := Finset.card_le_card hsub
    unfold mu
    have h1 : elemBound ne - (ne.getD (m.getD v 0) []).toFinset.card ≤
        elemBound ne - (ne.getD v []).toFinset.card := by omega
    calc (elemBound ne - (ne.getD (m.getD v 0) []).toFinset.card) *
          ne.length + m.getD v 0
        ≤ (elemBound ne - (ne.getD v []).toFinset.card) * ne.length +
          m.getD v 0 := Nat.add_le_add_right (Nat.mul_le_mul_right _ h1) _
      _ < (elemBound ne - (ne.getD v []).toFinset.card) * ne.length + v := by
          omega
  · have hwv : v < m.getD v 0 := by omega
    have hcc : (ne.getD v []).toFinset.card <
        (ne.getD (m.getD v 0) []).toFinset.card :=
      Finset.card_lt_card (hstrict hwv)
    unfold mu
    have h1 : elemBound ne - (ne.getD (m.getD v 0) []).toFinset.card + 1 ≤
        elemBound ne - (ne.getD v []).toFinset.card := by omega
    calc (elemBound ne - (ne.getD (m.getD v 0) []).toFinset.card) *
          ne.length + m.getD v 0
        < (elemBound ne - (ne.getD (m.getD v 0) []).toFinset.card) *
          ne.length + ne.length := by omega
      _ = (elemBound ne - (ne.getD (m.getD v 0) []).toFinset.card + 1) *
          ne.length := by ring
      _ ≤ (elemBound ne - (ne.getD v []).toFinset.card) * ne.length :=
          Nat.mul_le_mul_right _ h1
      _ ≤ (elemBound ne - (ne.getD v []).toFinset.card) * ne.length + v :=
          Nat.le_add_right _ _

theorem iterMap_succ_out (m : List Nat) :
    ∀ (t v : Nat), iterMap m (t + 1) v = m.getD (iterMap m t v) 0 := by
  intro t
  induction t with
  | zero => intro v; rfl
  | succ t ih =>
    intro v
    rw [show iterMap m (t + 1 + 1) v = iterMap m (t + 1) (m.getD v 0) from rfl,
      ih, show iterMap m (t + 1) v = iterMap m t (m.getD v 0) from rfl]

theorem iterMap_fix_stable {m : List Nat} {p : Nat} (hp : m.getD p 0 = p) :
    ∀ t, iterMap m t p = p := by
  intro t
  induction t with
  | zero => rfl
  | succ t ih => rw [iterMap_succ_out, ih, hp]

theorem iterMap_lt {ne : List (List Nat)} {m : List Nat}
    (hinv : MappingInv ne m) :
    ∀ (t : Nat) {v : Nat}, v < m.length → iterMap m t v < m.length := by
  intro t
  induction t with
  | zero => intro v hv; exact hv
  | succ t ih =>
    intro v hv
    rw [iterMap_succ_out]
    have hit := ih hv
    rcases hinv.2 _ hit with h | ⟨h, -, -, -⟩
    · rw [h]; exact hit
    · exact h

theorem walk_reaches {ne : List (List Nat)} {m : List Nat}
    (hinv : MappingInv ne m) :
    ∀ (c : Nat) {v : Nat}, v < m.length → mu ne v < c →
      ∃ t, t ≤ mu ne v ∧ m.getD (iterMap m t v) 0 = iterMap m t v := by
  intro c
  induction c with
  | zero => intro v _ hc; omega
  | succ c ih =>
    intro v hv hc
    by_cases hfix : m.getD v 0 = v
    · exact ⟨0, Nat.zero_le _, hfix⟩
    · have hw : m.getD v 0 < m.length := by
        rcases hinv.2 v hv with h | ⟨h, -, -, -⟩
        · exact absurd h hfix
        · exact h
      have hmu := mu_step_lt hinv hv hfix
      obtain ⟨t, ht, hfix2⟩ := ih hw (by omega)
      exact ⟨t + 1, by omega, hfix2⟩

theorem iterMap_subset {ne : List (List Nat)} {m : List Nat}
    (hinv : MappingInv ne m) :
    ∀ (t : Nat) {v : Nat}, v < m.length →
      (ne.getD v []).toFinset ⊆ (ne.getD (iterMap m t v) []).toFinset := by
  intro t
  induction t with
  | zero => intro v _; exact Finset.Subset.refl _
  | succ t ih =>
    intro v hv
    rw [iterMap_succ_out]
    have hit := ih hv
    rcases hinv.2 _ (iterMap_lt hinv t hv) with h | ⟨-, -, hsub, -⟩
    · rw [h]; exact hit
    · exact le_trans hit hsub

theorem two_cycle_alternates {m : List Nat} {j : Nat}
    (h2 : m.getD (m.getD j 0) 0 = j) :
    ∀ t, iterMap m t j = j ∨ iterMap m t j = m.getD j 0 := by
  intro t
  induction t with
  | zero => left; rfl
  | succ t ih =>
    rcases ih with h | h
    · right; rw [iterMap_succ_out, h]
    · left; rw [iterMap_succ_out, h, h2]

theorem no_two_cycle_of_reach {m : List Nat} {j s : Nat}
    (hfix : m.getD (iterMap m s j) 0 = iterMap m s j)
    (h2 : m.getD (m.getD j 0) 0 = j) : m.getD j 0 = j := by
  by_contra hne
  rcases two_cycle_alternates h2 s with h | h
  · rw [h] at hfix; exact hne hfix
  · rw [h, h2] at hfix; exact hne hfix.symm

theorem fpLoop_exit {m : List Nat} {j k : Nat} (h : j = k) :
    ∀ fuel, fpLoop m fuel j k = some j := by
  intro fuel
  cases fuel <;> simp [fpLoop, h]

theorem fpLoop_inner {m : List Nat} :
    ∀ (s : Nat) {j fuel : Nat}, s ≤ fuel →
      m.getD (iterMap m s j) 0 = iterMap m s j →
      ∃ p t, fpLoop m fuel j (m.getD (m.getD j 0) 0) = some p ∧
        m.getD p 0 = p ∧ p = iterMap m t j := by
  intro s
  induction s with
  | zero =>
    intro j fuel _ hfix
    have hj : m.getD j 0 = j := hfix
    refine ⟨j, 0, ?_, hj, rfl⟩
    rw [hj, hj]
    exact fpLoop_exit rfl fuel
  | succ s ih =>
    intro j fuel hfuel hfix
    by_cases hj : m.getD j 0 = j
    · refine ⟨j, 0, ?_, hj, rfl⟩
      rw [hj, hj]
      exact fpLoop_exit rfl fuel
    · by_cases h2 : m.getD (m.getD j 0) 0 = j
      · exact absurd (no_two_cycle_of_reach hfix h2) hj
      · obtain ⟨fuel', rfl⟩ : ∃ f, fuel = f + 1 := ⟨fuel - 1, by omega⟩
        have hstep : fpLoop m (fuel' + 1) j (m.getD (m.getD j 0) 0) =
            fpLoop m fuel' (m.getD j 0)
              (m.getD (m.getD (m.getD j 0) 0) 0) := by
          simp only [fpLoop]
          rw [if_neg (fun he => h2 he.symm)]
        have hfix2 : m.getD (iterMap m s (m.getD j 0)) 0 =
            iterMap m s (m.getD j 0) := hfix
        obtain ⟨p, t, hp, hpfix, hpt⟩ := @ih (m.getD j 0) fuel' (by omega) hfix2
        exact ⟨p, t + 1, by rw [hstep]; exact hp, hpfix, hpt⟩

theorem fpLoop_top {m : List Nat} {i s fuel : Nat} (hfuel : s ≤ fuel)
    (hfix : m.getD (iterMap m s i) 0 = iterMap m s i) :
    ∃ p t, fpLoop m fuel i (m.getD i 0) = some p ∧ m.getD p 0 = p ∧
      p = iterMap m t i := by
  by_cases hi : m.getD i 0 = i
  · refine ⟨i, 0, ?_, hi, rfl⟩
    rw [hi]
    exact fpLoop_exit rfl fuel
  · have hs : 1 ≤ s := by
      rcases Nat.eq_zero_or_pos s with rfl | h
      · exact absurd hfix hi
      · exact h
    obtain ⟨s', rfl⟩ : ∃ u, s = u + 1 := ⟨s - 1, by omega⟩
    obtain ⟨fuel', rfl⟩ : ∃ f, fuel = f + 1 := ⟨fuel - 1, by omega⟩
    have hstep : fpLoop m (fuel' + 1) i (m.getD i 0) =
        fpLoop m fuel' (m.getD i 0)
          (m.getD (m.getD (m.getD i 0) 0) 0) := by
      simp only [fpLoop]
      rw [if_neg (fun he => hi he.symm)]
    have hfix2 : m.getD (iterMap m s' (m.getD i 0)) 0 =
        iterMap m s' (m.getD i 0) := hfix
    obtain ⟨p, t, hp, hpfix, hpt⟩ :=
      @fpLoop_inner m s' (m.getD i 0) fuel' (by omega) hfix2
    exact ⟨p, t + 1, by rw [hstep]; exact hp, hpfix, hpt⟩

theorem fixedPointsAux_spec {m : List Nat} {fuel : Nat} :
    ∀ (l : List Nat),
      (∀ i ∈ l, ∃ p, fpLoop m fuel i (m.getD i 0) = some p) →
      ∃ r, fixedPointsAux m fuel l = some r ∧ r.length = l.length ∧
        ∀ k, k < l.length →
          fpLoop m fuel (l.getD k 0) (m.getD (l.getD k 0) 0) =
            some (r.getD k 0) := by
  intro l
  induction l with
  | nil =>
    intro _
    exact ⟨[], rfl, rfl, fun k hk => absurd hk (by simp)⟩
  | cons i l ih =>
    intro h
    obtain ⟨p, hp⟩ := h i (List.mem_cons_self _ _)
    obtain ⟨r, hr, hrl, hrk⟩ := ih (fun x hx => h x (List.mem_cons_of_mem _ hx))
    refine ⟨p :: r, ?_, by simp [hrl], ?_⟩
    · unfold fixedPointsAux
      rw [hp, hr]
    · intro k hk
      cases k with
      | zero => simpa [List.getD_cons_zero] using hp
      | succ k =>
        simp only [List.getD_cons_succ]
        exact hrk k (by simpa using hk)

theorem mu_lt_defaultFuel {ne : List (List Nat)} {v : Nat}
    (hv : v < ne.length) : mu ne v < defaultFuel ne := by
  rw [defaultFuel_eq]
  unfold mu
  have h1 : elemBound ne - (ne.getD v []).toFinset.card ≤ elemBound ne :=
    Nat.sub_le _ _
  calc (elemBound ne - (ne.getD v []).toFinset.card) * ne.length + v
      ≤ elemBound ne * ne.length + v :=
        Nat.add_le_add_right (Nat.mul_le_mul_right _ h1) v
    _ < elemBound ne * ne.length + ne.length + 2 := by omega
    _ = (elemBound ne + 1) * ne.length + 2 := by ring

/-- Full specification of `_fixed_points` on mappings satisfying the scan
invariant: it returns a list of in-range fixed points, each reachable from
its index by iterating the mapping. -/
theorem fixedPoints_spec {ne : List (List Nat)} {m : List Nat}
    (hinv : MappingInv ne m) :
    ∃ fpm, fixedPoints m (defaultFuel ne) = some fpm ∧
      fpm.length = m.length ∧
      ∀ k, k < m.length →
        m.getD (fpm.getD k 0) 0 = fpm.getD k 0 ∧
        fpm.getD k 0 < m.length ∧
        ∃ t, fpm.getD k 0 = iterMap m t k := by
  have hlen := hinv.1
  have hloop : ∀ i, i < m.length →
      ∃ p t, fpLoop m (defaultFuel ne) i (m.getD i 0) = some p ∧
        m.getD p 0 = p ∧ p = iterMap m t i := by
    intro i hi
    obtain ⟨s, hs, hfix⟩ := walk_reaches hinv (mu ne i + 1) hi (Nat.lt_succ_self _)
    have hsf : s ≤ defaultFuel ne := by
      have := mu_lt_defaultFuel (show i < ne.length by omega)
      omega
    exact fpLoop_top hsf hfix
  obtain ⟨r, hr, hrl, hrk⟩ := fixedPointsAux_spec (List.range m.length)
    (fun i hi => by
      obtain ⟨p, t, hp, -, -⟩ := hloop i (List.mem_range.mp hi)
      exact ⟨p, hp⟩)
  refine ⟨r, hr, by rw [hrl, List.length_range], ?_⟩
  intro k hk
  have hgetr := hrk k (by simpa using hk)
  have hrange : (List.range m.length).getD k 0 = k := by
    rw [List.getD_eq_getElem _ _ (by simpa using hk), List.getElem_range]
  rw [hrange] at hgetr
  obtain ⟨p, t, hp, hpfix, hpt⟩ := hloop k hk
  rw [hp] at hgetr
  obtain rfl : p = r.getD k 0 := Option.some.inj hgetr
  refine ⟨hpfix, ?_, t, hpt⟩
  rw [hpt]
  exact iterMap_lt hinv t hk

/-- C8: for every mapping produced by the pair scan of `_generate_edge_data`
with `contract_nodes = True` on duplicate-free `node_elements`, repeatedly
following the mapping from any vertex reaches a fixed point in finitely many
steps, and the `while` loop of `_fixed_points` exits (the fuelled resolution
returns a value at the fuel bound used by `fit_transform`). -/
theorem nerve_C8_resolution_terminates (mi : Int) (store : Bool)
    (ne : List (List Nat)) (hnd : ∀ l ∈ ne, l.Nodup) (m : List Nat)
    (hm : (generateEdgeData mi store true ne).mapping = some m) :
    (∀ i, i < m.length →
      ∃ t, m.getD (iterMap m t i) 0 = iterMap m t i) ∧
      ∃ fpm, fixedPoints m (defaultFuel ne) = some fpm := by
  rw [generateEdgeData_mapping_true] at hm
  obtain rfl : contractionMapping ne = m := Option.some.inj hm
  have hinv := contractionMapping_inv ne hnd
  constructor
  · intro i hi
    obtain ⟨s, -, hfix⟩ := walk_reaches hinv (mu ne i + 1) hi (Nat.lt_succ_self _)
    exact ⟨s, hfix⟩
  · obtain ⟨fpm, hfpm, -, -⟩ := fixedPoints_spec hinv
    exact ⟨fpm, hfpm⟩

theorem nerve_C8_resolution_terminates_witness :
    (∀ i, i < ([1, 1] : List Nat).length →
      ∃ t, ([1, 1] : List Nat).getD (iterMap [1, 1] t i) 0 =
        iterMap [1, 1] t i) ∧
      ∃ fpm, fixedPoints [1, 1] (defaultFuel [[1, 2], [1, 2, 3]]) = some fpm :=
  nerve_C8_resolution_terminates 1 false [[1, 2], [1, 2, 3]]
    (by decide) [1, 1] (by decide)

/-! ### Structure of `fitTransform` -/

theorem nervePregraph_numVertices (mi : Int) (store cn : Bool) (X) :
    (nervePregraph mi store cn X).numVertices = (nerveNodes X).length := rfl

theorem nervePregraph_node_elements (mi : Int) (store cn : Bool) (X) :
    (nervePregraph mi store cn X).node_elements =
      ((nerveNodes X).map (fun t => t.2.2)).map some := rfl

theorem nervePregraph_edges (mi : Int) (store cn : Bool) (X) :
    (nervePregraph mi store cn X).edges =
      ((combinations2 (List.enum ((nerveNodes X).map (fun t => t.2.2)))).filter
        (edgeKeep mi cn)).map
        (fun pr => ⟨pr.1.1, pr.2.1, interSize pr,
          if store then some (interList pr) else none⟩) := by
  unfold nervePregraph
  cases store
  · simp only [Bool.false_eq_true, if_false]
    rw [generateEdgeData_pairs, generateEdgeData_weights, List.zip_map',
      List.map_map]
    rfl
  · simp only [if_true]
    rw [generateEdgeData_pairs, generateEdgeData_weights,
      generateEdgeData_inters_store, List.zip_map', List.zip_map',
      List.map_map]
    rfl

theorem fitTransform_empty (mi : Int) (store cn : Bool) (X)
    (h : nerveNodes X = []) : fitTransform mi store cn X = none := by
  unfold fitTransform
  rw [if_pos (List.isEmpty_iff.mpr h)]

theorem fitTransform_false (mi : Int) (store : Bool) (X)
    (h : ¬ nerveNodes X = []) :
    fitTransform mi store false X = some (nervePregraph mi store false X) := by
  unfold fitTransform
  rw [if_neg (fun he => h (List.isEmpty_iff.mp he))]
  rfl

theorem fitTransform_true_eq (mi : Int) (store : Bool) (X) (fpm : List Nat)
    (h : ¬ nerveNodes X = [])
    (hfpm : fixedPoints (contractionMapping ((nerveNodes X).map (fun t => t.2.2)))
      (defaultFuel ((nerveNodes X).map (fun t => t.2.2))) = some fpm) :
    fitTransform mi store true X =
      some (deleteVertices
        (contractVertices (nervePregraph mi store true X) fpm)
        ((List.range
          (contractVertices (nervePregraph mi store true X) fpm).numVertices).filter
          (fun i => decide (¬ i = fpm.getD i 0)))) := by
  unfold fitTransform
  rw [if_neg (fun he => h (List.isEmpty_iff.mp he))]
  simp only [generateEdgeData_mapping_true, hfpm]
  rfl

/-! ### Edges of the pre-contraction graph -/

theorem pregraph_edge_mem {mi : Int} {store cn : Bool} {X} {e : Edge}
    (he : e ∈ (nervePregraph mi store cn X).edges) :
    ∃ pr ∈ combinations2 (List.enum ((nerveNodes X).map (fun t => t.2.2))),
      edgeKeep mi cn pr = true ∧
      e = ⟨pr.1.1, pr.2.1, interSize pr,
        if store then some (interList pr) else none⟩ := by
  rw [nervePregraph_edges] at he
  obtain ⟨pr, hpr, rfl⟩ := List.mem_map.mp he
  exact ⟨pr, (List.mem_filter.mp hpr).1, (List.mem_filter.mp hpr).2, rfl⟩

theorem pregraph_edge_of_keep {mi : Int} {store cn : Bool} {X} {pr}
    (hpr : pr ∈ combinations2 (List.enum ((nerveNodes X).map (fun t => t.2.2))))
    (hkeep : edgeKeep mi cn pr = true) :
    (⟨pr.1.1, pr.2.1, interSize pr,
      if store then some (interList pr) else none⟩ : Edge) ∈
      (nervePregraph mi store cn X).edges := by
  rw [nervePregraph_edges]
  exact List.mem_map_of_mem _ (List.mem_filter.mpr ⟨hpr, hkeep⟩)

/-- Facts about a member of the pair scan over the flattened cover, with
`ne` the list of element lists. -/
theorem scan_pair_facts {ne : List (List Nat)} {pr}
    (hpr : pr ∈ combinations2 (List.enum ne)) :
    pr.1.1 < pr.2.1 ∧ pr.2.1 < ne.length ∧
      ne.getD pr.1.1 [] = pr.1.2 ∧ ne.getD pr.2.1 [] = pr.2.2 := by
  obtain ⟨-, hij, hjn, hp1, hp2⟩ := mem_combinations2_enumFrom hpr
  refine ⟨hij, by simpa using hjn, ?_, ?_⟩
  · have := mem_enumFrom_getD [] hp1
    simpa using this
  · have := mem_enumFrom_getD [] hp2
    simpa using this

/-- The intersection size at a scan pair equals the cardinality of the
intersection of the two element sets. -/
theorem interSize_eq_card {ne : List (List Nat)} {pr}
    (hpr : pr ∈ combinations2 (List.enum ne)) :
    interSize pr = ((ne.getD pr.1.1 []).toFinset ∩
      (ne.getD pr.2.1 []).toFinset).card := by
  obtain ⟨-, -, h1, h2⟩ := scan_pair_facts hpr
  rw [h1, h2]
  exact intersect1d_length _ _

/-- With `contract_nodes = False`, an edge `(i, j)` exists in the graph
returned by `fit_transform` if and only if the two element sets meet the
threshold; membership form used by several claims. -/
theorem pregraph_edge_exists_iff (mi : Int) (store : Bool) (X)
    (h : ¬ nerveNodes X = []) (i j : Nat) (hij : i < j)
    (hj : j < (nerveNodes X).length) :
    (∃ e ∈ optEdges (fitTransform mi store false X),
        e.src = i ∧ e.tgt = j) ↔
      mi ≤ (((((nerveNodes X).map (fun t => t.2.2)).getD i []).toFinset ∩
        ((((nerveNodes X).map (fun t => t.2.2)).getD j []).toFinset)).card : Int) := by
  rw [fitTransform_false mi store X h]
  constructor
  · rintro ⟨e, he, hsrc, htgt⟩
    obtain ⟨pr, hpr, hkeep, rfl⟩ := pregraph_edge_mem he
    simp only at hsrc htgt
    have hcard := interSize_eq_card hpr
    rw [hsrc, htgt] at hcard
    rw [← hcard]
    unfold edgeKeep at hkeep
    simp only [Bool.false_eq_true, if_false, decide_eq_true_eq] at hkeep
    exact hkeep
  · intro hcard
    have hlen : j < ((nerveNodes X).map (fun t => t.2.2)).length := by
      simpa using hj
    have hpr := combinations2_enumFrom_complete (α := List Nat) []
      ((nerveNodes X).map (fun t => t.2.2)) 0 i j hij hlen
    simp only [Nat.zero_add] at hpr
    refine ⟨⟨i, j, interSize _, if store then some (interList _) else none⟩,
      pregraph_edge_of_keep hpr ?_, rfl, rfl⟩
    unfold edgeKeep
    simp only [Bool.false_eq_true, if_false, decide_eq_true_eq]
    rw [interSize_eq_card hpr]
    exact hcard

/-- With `contract_nodes = False`, every edge `(i, j)` carries weight equal
to the intersection cardinality of the two element sets. -/
theorem pregraph_edge_weight (mi : Int) (store : Bool) (X)
    (h : ¬ nerveNodes X = []) (i j : Nat) :
    ∀ e ∈ optEdges (fitTransform mi store false X), e.src = i → e.tgt = j →
      e.weight = ((((nerveNodes X).map (fun t => t.2.2)).getD i []).toFinset ∩
        ((((nerveNodes X).map (fun t => t.2.2)).getD j []).toFinset)).card := by
  rw [fitTransform_false mi store X h]
  intro e he hsrc htgt
  obtain ⟨pr, hpr, -, rfl⟩ := pregraph_edge_mem he
  simp only at hsrc htgt ⊢
  rw [← hsrc, ← htgt]
  exact interSize_eq_card hpr

/-! ### Claims C1, C7, C3, C6, C5 -/

/-- C1: for every cover with duplicate-free `node_elements` and
`contract_nodes = False`, and every pair `i < j`, the graph returned by
`fit_transform` has an edge `(i, j)` iff
`|node_elements[i] ∩ node_elements[j]| ≥ min_intersection`, and any such
edge's weight equals that intersection size. -/
theorem nerve_C1_edge_iff_threshold (mi : Int) (store : Bool) (X)
    (hno : ¬ nerveNodes X = [])
    (_hnd : ∀ l ∈ (nerveNodes X).map (fun t => t.2.2), l.Nodup)
    (i j : Nat) (hij : i < j) (hj : j < (nerveNodes X).length) :
    ((∃ e ∈ optEdges (fitTransform mi store false X),
        e.src = i ∧ e.tgt = j) ↔
      mi ≤ (((((nerveNodes X).map (fun t => t.2.2)).getD i []).toFinset ∩
        ((((nerveNodes X).map (fun t => t.2.2)).getD j []).toFinset)).card : Int)) ∧
      ∀ e ∈ optEdges (fitTransform mi store false X), e.src = i → e.tgt = j →
        e.weight =
          ((((nerveNodes X).map (fun t => t.2.2)).getD i []).toFinset ∩
            ((((nerveNodes X).map (fun t => t.2.2)).getD j []).toFinset)).card :=
  ⟨pregraph_edge_exists_iff mi store X hno i j hij hj,
    pregraph_edge_weight mi store X hno i j⟩

theorem nerve_C1_edge_iff_threshold_witness :
    ((∃ e ∈ optEdges (fitTransform 1 false false
        [[(0, 0, [1, 2, 3])], [(0, 1, [3, 4, 5])], [(1, 0, [5, 6, 7])]]),
        e.src = 0 ∧ e.tgt = 1) ↔
      (1 : Int) ≤ (((((nerveNodes
          [[(0, 0, [1, 2, 3])], [(0, 1, [3, 4, 5])], [(1, 0, [5, 6, 7])]]).map
          (fun t => t.2.2)).getD 0 []).toFinset ∩
        ((((nerveNodes
          [[(0, 0, [1, 2, 3])], [(0, 1, [3, 4, 5])], [(1, 0, [5, 6, 7])]]).map
          (fun t => t.2.2)).getD 1 []).toFinset)).card : Int)) ∧
      ∀ e ∈ optEdges (fitTransform 1 false false
        [[(0, 0, [1, 2, 3])], [(0, 1, [3, 4, 5])], [(1, 0, [5, 6, 7])]]),
        e.src = 0 → e.tgt = 1 →
        e.weight = ((((nerveNodes
            [[(0, 0, [1, 2, 3])], [(0, 1, [3, 4, 5])], [(1, 0, [5, 6, 7])]]).map
            (fun t => t.2.2)).getD 0 []).toFinset ∩
          ((((nerveNodes
            [[(0, 0, [1, 2, 3])], [(0, 1, [3, 4, 5])], [(1, 0, [5, 6, 7])]]).map
            (fun t => t.2.2)).getD 1 []).toFinset)).card :=
  nerve_C1_edge_iff_threshold 1 false
    [[(0, 0, [1, 2, 3])], [(0, 1, [3, 4, 5])], [(1, 0, [5, 6, 7])]]
    (by decide) (by decide) 0 1 (by decide) (by decide)

/-- C7: holding the cover fixed and `contract_nodes = False`, raising the
threshold from `m1` to `m2 ≥ m1` only removes edges: the `m2` edge list is
contained in the `m1` edge list, and its length does not increase. -/
theorem nerve_C7_monotone (m1 m2 : Int) (store : Bool) (X)
    (_h0 : 0 < m1) (h12 : m1 ≤ m2) :
    (∀ e ∈ optEdges (fitTransform m2 store false X),
        e ∈ optEdges (fitTransform m1 store false X)) ∧
      (optEdges (fitTransform m2 store false X)).length ≤
        (optEdges (fitTransform m1 store false X)).length := by
  by_cases h : nerveNodes X = []
  · rw [fitTransform_empty _ _ _ _ h, fitTransform_empty _ _ _ _ h]
    exact ⟨fun e he => he, le_refl _⟩
  · rw [fitTransform_false _ _ _ h, fitTransform_false _ _ _ h]
    have hmono : ∀ pr, edgeKeep m2 false pr = true →
        edgeKeep m1 false pr = true := by
      intro pr hpr
      unfold edgeKeep at hpr ⊢
      simp only [Bool.false_eq_true, if_false, decide_eq_true_eq] at hpr ⊢
      omega
    have hsub := ((List.monotone_filter_right
        (combinations2 (List.enum ((nerveNodes X).map (fun t => t.2.2))))
        hmono).map
      (fun pr => (⟨pr.1.1, pr.2.1, interSize pr,
        if store then some (interList pr) else none⟩ : Edge)))
    constructor
    · intro e he
      rw [show optEdges (some (nervePregraph m2 store false X)) =
        (nervePregraph m2 store false X).edges from rfl,
        nervePregraph_edges] at he
      rw [show optEdges (some (nervePregraph m1 store false X)) =
        (nervePregraph m1 store false X).edges from rfl,
        nervePregraph_edges]
      exact hsub.subset he
    · rw [show optEdges (some (nervePregraph m2 store false X)) =
        (nervePregraph m2 store false X).edges from rfl,
        show optEdges (some (nervePregraph m1 store false X)) =
        (nervePregraph m1 store false X).edges from rfl,
        nervePregraph_edges, nervePregraph_edges]
      exact hsub.length_le

theorem nerve_C7_monotone_witness :
    (∀ e ∈ optEdges (fitTransform 2 false false
        [[(0, 0, [1, 2, 3])], [(0, 1, [2, 3])]]),
      e ∈ optEdges (fitTransform 1 false false
        [[(0, 0, [1, 2, 3])], [(0, 1, [2, 3])]])) ∧
      (optEdges (fitTransform 2 false false
        [[(0, 0, [1, 2, 3])], [(0, 1, [2, 3])]])).length ≤
        (optEdges (fitTransform 1 false false
          [[(0, 0, [1, 2, 3])], [(0, 1, [2, 3])]])).length :=
  nerve_C7_monotone 1 2 false [[(0, 0, [1, 2, 3])], [(0, 1, [2, 3])]]
    (by decide) (by decide)

/-- C3 counterexample: with `contract_nodes = True`, the cover
`[[(0,0,[1,2,5])], [(0,1,[2,3,6])], [(1,0,[1,2,3,5,6])]]` (where vertices 0
and 1 are linked by an edge and are both contracted into vertex 2) yields a
returned graph whose only edge is the self-loop `(0, 0)`, refuting the claim
that no produced graph ever has a self-loop. -/
theorem nerve_C3_counterexample :
    (fitTransform 1 false true
      [[(0, 0, [1, 2, 5])], [(0, 1, [2, 3, 6])], [(1, 0, [1, 2, 3, 5, 6])]]).map
      (fun g => g.edges.map (fun e => (e.src, e.tgt))) = some [(0, 0)] := by
  decide

/-- C3 amended: with `contract_nodes = False` (for every cover, every
`min_intersection` and every `store_edge_elements`) the returned graph has no
self-loops and no duplicate edges; with `contract_nodes = True` the
contraction pass can remap an edge's endpoints onto a single vertex,
producing a self-loop (and similarly duplicate edges) in the returned
graph. -/
theorem nerve_C3_amended (mi : Int) (store : Bool) (X) :
    (∀ e ∈ optEdges (fitTransform mi store false X), e.src < e.tgt) ∧
      ((optEdges (fitTransform mi store false X)).map
        (fun e => (e.src, e.tgt))).Nodup := by
  by_cases h : nerveNodes X = []
  · rw [fitTransform_empty _ _ _ _ h]
    exact ⟨fun e he => absurd he (List.not_mem_nil e), List.nodup_nil⟩
  · rw [fitTransform_false _ _ _ h]
    constructor
    · intro e he
      obtain ⟨pr, hpr, -, rfl⟩ := pregraph_edge_mem he
      exact (scan_pair_facts hpr).1
    · rw [show optEdges (some (nervePregraph mi store false X)) =
        (nervePregraph mi store false X).edges from rfl,
        nervePregraph_edges, List.map_map]
      have hfun : ((fun (e : Edge) => (e.src, e.tgt)) ∘
          fun pr => (⟨pr.1.1, pr.2.1, interSize pr,
            if store then some (interList pr) else none⟩ : Edge)) =
          fun pr => (pr.1.1, pr.2.1) := rfl
      rw [hfun]
      exact List.Nodup.sublist
        ((List.filter_sublist _).map _)
        (combinations2_enumFrom_idx_nodup
          ((nerveNodes X).map (fun t => t.2.2)) 0)

theorem nerve_C3_amended_witness :
    (∀ e ∈ optEdges (fitTransform 1 false false
        [[(0, 0, [1, 2, 3])], [(0, 1, [3, 4, 5])], [(1, 0, [5, 6, 7])]]),
      e.src < e.tgt) ∧
      ((optEdges (fitTransform 1 false false
        [[(0, 0, [1, 2, 3])], [(0, 1, [3, 4, 5])], [(1, 0, [5, 6, 7])]])).map
        (fun e => (e.src, e.tgt))).Nodup :=
  nerve_C3_amended 1 false
    [[(0, 0, [1, 2, 3])], [(0, 1, [3, 4, 5])], [(1, 0, [5, 6, 7])]]

/-- C6 counterexample: with `min_intersection = 0` (non-positive) and a
nonempty cover, `fit_transform` does not report any input-validation
failure: it silently returns a full graph, here with a weight-0 edge between
two disjoint vertices.  (The source has only a `# TODO: Include a validation
step for X` comment; no validation exists.) -/
theorem nerve_C6_counterexample :
    fitTransform 0 false false [[(0, 0, [1])], [(0, 1, [2])]] =
      some ⟨2, [some 0, some 0], [some 0, some 1], [some [1], some [2]],
        [⟨0, 1, 0, none⟩]⟩ := by
  decide

/-- C6 amended: no validation is performed.  With an empty cover,
`fit_transform` fails (no graph object is returned) at the attribute reads,
before edge construction.  A non-positive `min_intersection` is not
rejected: construction proceeds silently and, with `contract_nodes = False`,
produces an edge for every vertex pair. -/
theorem nerve_C6_amended (mi : Int) (store cn : Bool) (X Y)
    (hX : nerveNodes X = []) (hY : ¬ nerveNodes Y = []) (hmi : mi ≤ 0) :
    fitTransform mi store cn X = none ∧
      ∀ i j, i < j → j < (nerveNodes Y).length →
        ∃ e ∈ optEdges (fitTransform mi store false Y),
          e.src = i ∧ e.tgt = j := by
  refine ⟨fitTransform_empty mi store cn X hX, ?_⟩
  intro i j hij hj
  refine (pregraph_edge_exists_iff mi store Y hY i j hij hj).mpr ?_
  exact le_trans hmi (Int.natCast_nonneg _)

theorem nerve_C6_amended_witness :
    fitTransform 0 false false [] = none ∧
      ∀ i j, i < j →
        j < (nerveNodes [[(0, 0, [1])], [(0, 1, [2])]]).length →
        ∃ e ∈ optEdges (fitTransform 0 false false
          [[(0, 0, [1])], [(0, 1, [2])]]),
          e.src = i ∧ e.tgt = j :=
  nerve_C6_amended 0 false false [] [[(0, 0, [1])], [(0, 1, [2])]]
    rfl (by decide) (by decide)

/-- C5 counterexample: on the cover `[[(0,0,[1,2])], [(0,1,[1,2,3])]]` with
`contract_nodes = True`, the surviving vertex carries the attributes of
vertex 0, not of vertex 1 as claimed: igraph's `combine_attrs="first"` keeps
the attributes of the lowest-index member of the merged group, and the group
collapsed onto fixed point 1 is `{0, 1}`, whose first member is 0. -/
theorem nerve_C5_counterexample :
    (fitTransform 1 false true [[(0, 0, [1, 2])], [(0, 1, [1, 2, 3])]]).map
        (fun g => g.partial_cluster_label) = some [some 0] ∧
      ¬ (fitTransform 1 false true [[(0, 0, [1, 2])], [(0, 1, [1, 2, 3])]]).map
          (fun g => g.partial_cluster_label) = some [some 1] := by
  exact ⟨rfl, by decide⟩

/-- C5 amended: on the cover `[[(0,0,[1,2])], [(0,1,[1,2,3])]]` with
`contract_nodes = True`, `fit_transform` returns a graph with exactly one
surviving vertex and no edges; the vertex carries the attributes of vertex 0
(`pullback_set_label 0`, `partial_cluster_label 0`, `node_elements [1, 2]`),
the first-in-index-order member of the contracted group. -/
theorem nerve_C5_amended :
    fitTransform 1 false true [[(0, 0, [1, 2])], [(0, 1, [1, 2, 3])]] =
      some ⟨1, [some 0], [some 0], [some [1, 2]], []⟩ := by
  decide

/-! ### Claim C9: independence from `store_edge_elements` -/

theorem erase_pregraph (mi : Int) (store cn : Bool) (X) :
    eraseEdgeElements (nervePregraph mi store cn X) =
      nervePregraph mi false cn X := by
  refine Graph.ext rfl rfl rfl rfl ?_
  show (nervePregraph mi store cn X).edges.map
      (fun e => { e with edge_elements := none }) =
    (nervePregraph mi false cn X).edges
  rw [nervePregraph_edges, nervePregraph_edges, List.map_map]
  cases store <;> rfl

theorem contract_numVertices (g : Graph) (mp : List Nat) :
    (contractVertices g mp).numVertices =
      (if mp.isEmpty then 0 else mp.foldr max 0 + 1) := rfl

theorem erase_contract (g : Graph) (mp : List Nat) :
    eraseEdgeElements (contractVertices g mp) =
      contractVertices (eraseEdgeElements g) mp := by
  refine Graph.ext rfl rfl rfl rfl ?_
  show (contractVertices g mp).edges.map
      (fun e => { e with edge_elements := none }) =
    (contractVertices (eraseEdgeElements g) mp).edges
  show (g.edges.map (fun e =>
      { e with src := mp.getD e.src 0, tgt := mp.getD e.tgt 0 })).map
      (fun e => { e with edge_elements := none }) =
    (g.edges.map (fun e => { e with edge_elements := none })).map
      (fun e => { e with src := mp.getD e.src 0, tgt := mp.getD e.tgt 0 })
  rw [List.map_map, List.map_map]
  rfl

theorem erase_delete (g : Graph) (del : List Nat) :
    eraseEdgeElements (deleteVertices g del) =
      deleteVertices (eraseEdgeElements g) del := by
  refine Graph.ext rfl rfl rfl rfl ?_
  simp only [eraseEdgeElements, deleteVertices, List.filter_map, List.map_map]
  rfl

theorem fitTransform_true_none (mi : Int) (store : Bool) (X)
    (h : ¬ nerveNodes X = [])
    (hfpm : fixedPoints
      (contractionMapping ((nerveNodes X).map (fun t => t.2.2)))
      (defaultFuel ((nerveNodes X).map (fun t => t.2.2))) = none) :
    fitTransform mi store true X = none := by
  unfold fitTransform
  rw [if_neg (fun he => h (List.isEmpty_iff.mp he))]
  simp only [generateEdgeData_mapping_true, hfpm]
  rfl

/-- Erasing the `edge_elements` attribute from the output of `fit_transform`
yields exactly the output of the `store_edge_elements = False` run. -/
theorem fitTransform_erase_eq (mi : Int) (store cn : Bool) (X) :
    (fitTransform mi store cn X).map eraseEdgeElements =
      fitTransform mi false cn X := by
  by_cases h : nerveNodes X = []
  · rw [fitTransform_empty mi store cn X h, fitTransform_empty mi false cn X h]
    rfl
  · cases cn
    · rw [fitTransform_false mi store X h, fitTransform_false mi false X h]
      show some (eraseEdgeElements (nervePregraph mi store false X)) = _
      rw [erase_pregraph]
    · cases hfp : fixedPoints
        (contractionMapping ((nerveNodes X).map (fun t => t.2.2)))
        (defaultFuel ((nerveNodes X).map (fun t => t.2.2))) with
      | none =>
        rw [fitTransform_true_none mi store X h hfp,
          fitTransform_true_none mi false X h hfp]
        rfl
      | some fpm =>
        rw [fitTransform_true_eq mi store X fpm h hfp,
          fitTransform_true_eq mi false X fpm h hfp]
        show some (eraseEdgeElements (deleteVertices
          (contractVertices (nervePregraph mi store true X) fpm) _)) = _
        rw [erase_delete, erase_contract, erase_pregraph]
        simp only [contract_numVertices]

/-- C9: the `store_edge_elements = True` and `False` branches of
`_generate_edge_data` return identical `node_index_pairs`, `weights` and
`mapping`; the graphs returned by `fit_transform` differ only by the
presence of the `edge_elements` edge attribute (they agree after erasing it,
and the `False` run carries no `edge_elements`). -/
theorem nerve_C9_store_independent (mi : Int) (cn : Bool)
    (ne : List (List Nat)) (X) :
    (generateEdgeData mi true cn ne).node_index_pairs =
        (generateEdgeData mi false cn ne).node_index_pairs ∧
      (generateEdgeData mi true cn ne).weights =
        (generateEdgeData mi false cn ne).weights ∧
      (generateEdgeData mi true cn ne).mapping =
        (generateEdgeData mi false cn ne).mapping ∧
      (fitTransform mi true cn X).map eraseEdgeElements =
        (fitTransform mi false cn X).map eraseEdgeElements ∧
      ∀ e ∈ optEdges (fitTransform mi false cn X),
        e.edge_elements = none := by
  refine ⟨?_, ?_, ?_, ?_, ?_⟩
  · rw [generateEdgeData_pairs, generateEdgeData_pairs]
  · rw [generateEdgeData_weights, generateEdgeData_weights]
  · cases cn
    · rw [generateEdgeData_mapping_false, generateEdgeData_mapping_false]
    · rw [generateEdgeData_mapping_true, generateEdgeData_mapping_true]
  · rw [fitTransform_erase_eq, fitTransform_erase_eq]
  · intro e he
    have heq := fitTransform_erase_eq mi false cn X
    cases hog : fitTransform mi false cn X with
    | none => rw [hog] at he; exact absurd he (List.not_mem_nil e)
    | some g =>
      rw [hog] at heq he
      have hg : eraseEdgeElements g = g := Option.some.inj heq
      have hedges : g.edges.map (fun e => { e with edge_elements := none }) =
          g.edges := congrArg Graph.edges hg
      rw [show optEdges (some g) = g.edges from rfl, ← hedges] at he
      obtain ⟨e0, -, rfl⟩ := List.mem_map.mp he
      rfl

theorem nerve_C9_store_independent_witness :
    (generateEdgeData 1 true false [[1, 2], [2, 3]]).node_index_pairs =
        (generateEdgeData 1 false false [[1, 2], [2, 3]]).node_index_pairs ∧
      (generateEdgeData 1 true false [[1, 2], [2, 3]]).weights =
        (generateEdgeData 1 false false [[1, 2], [2, 3]]).weights ∧
      (generateEdgeData 1 true false [[1, 2], [2, 3]]).mapping =
        (generateEdgeData 1 false false [[1, 2], [2, 3]]).mapping ∧
      (fitTransform 1 true false [[(0, 0, [1, 2])], [(0, 1, [2, 3])]]).map
          eraseEdgeElements =
        (fitTransform 1 false false [[(0, 0, [1, 2])], [(0, 1, [2, 3])]]).map
          eraseEdgeElements ∧
      ∀ e ∈ optEdges (fitTransform 1 false false
          [[(0, 0, [1, 2])], [(0, 1, [2, 3])]]),
        e.edge_elements = none :=
  nerve_C9_store_independent 1 false [[1, 2], [2, 3]]
    [[(0, 0, [1, 2])], [(0, 1, [2, 3])]]

/-! ### Claim C2: the contracted vertex set -/

theorem foldr_max_lt {l : List Nat} {n : Nat} (h : ∀ x ∈ l, x < n)
    (hn : 0 < n) : l.foldr max 0 < n := by
  induction l with
  | nil => exact hn
  | cons a l ih =>
    have ha := h a (List.mem_cons_self _ _)
    have hl := ih (fun x hx => h x (List.mem_cons_of_mem _ hx))
    simp only [List.foldr_cons]
    omega

theorem filter_range_false (P : Nat → Bool) :
    ∀ (b a : Nat), a ≤ b → (∀ i, a ≤ i → i < b → P i = false) →
      (List.range b).filter P = (List.range a).filter P := by
  intro b
  induction b with
  | zero =>
    intro a ha _
    obtain rfl : a = 0 := by omega
    rfl
  | succ b ih =>
    intro a ha hP
    by_cases hab : a = b + 1
    · subst hab; rfl
    · have ha2 : a ≤ b := by omega
      rw [List.range_succ, List.filter_append,
        show List.filter P [b] = [] from by
          simp [List.filter, hP b ha2 (by omega)],
        List.append_nil]
      exact ih a ha2 (fun i h1 h2 => hP i h1 (by omega))

theorem delete_keep_eq (nv : Nat) (fpm : List Nat) :
    (List.range nv).filter (fun i =>
      decide (¬ i ∈ (List.range nv).filter
        (fun i => decide (¬ i = fpm.getD i 0)))) =
    (List.range nv).filter (fun i => decide (fpm.getD i 0 = i)) := by
  apply List.filter_congr
  intro i hi
  rw [decide_eq_decide, List.mem_filter]
  simp only [decide_eq_true_eq]
  constructor
  · intro hni
    by_contra hne
    exact hni ⟨hi, fun he => hne he.symm⟩
  · intro hf hcon
    exact hcon.2 hf.symm

theorem fpm_mem_lt {fpm : List Nat} {n : Nat} (hlen : fpm.length = n)
    (hent : ∀ k, k < n → fpm.getD k 0 < n) : ∀ x ∈ fpm, x < n := by
  intro x hx
  obtain ⟨k, hk, rfl⟩ := List.mem_iff_getElem.mp hx
  have hkn : k < n := by omega
  have := hent k hkn
  rwa [List.getD_eq_getElem fpm 0 hk] at this

/-- The keep-list of the deletion pass equals the sorted list of fixed
points of the resolved mapping, taken over the original vertex range. -/
theorem contract_keep_eq_survivors {n : Nat} {fpm : List Nat}
    (hlen : fpm.length = n) (hn : 0 < n) (hent : ∀ x ∈ fpm, x < n) :
    (List.range (if fpm.isEmpty then 0 else fpm.foldr max 0 + 1)).filter
      (fun i => decide (¬ i ∈
        (List.range (if fpm.isEmpty then 0 else fpm.foldr max 0 + 1)).filter
          (fun i => decide (¬ i = fpm.getD i 0)))) =
    survivors n fpm := by
  have hne : fpm ≠ [] := by
    intro h
    rw [h] at hlen
    simp at hlen
    omega
  have hemp : fpm.isEmpty = false := by
    simp [List.isEmpty_iff, hne]
  rw [hemp]
  simp only [Bool.false_eq_true, if_false]
  rw [delete_keep_eq]
  have hmax : fpm.foldr max 0 < n := foldr_max_lt hent hn
  unfold survivors
  exact (filter_range_false _ n (fpm.foldr max 0 + 1) (by omega)
    (fun i h1 h2 => by
      have hgd : fpm.getD i 0 ∈ fpm := getD_mem 0 (by omega)
      have := le_foldr_max hgd
      simp only [decide_eq_false_iff_not]
      omega)).symm

/-- C2: with `contract_nodes = True`, the vertex set of the returned graph
is exactly the set of fixed points of the resolved contraction mapping,
re-indexed contiguously in their original (pre-contraction) relative order:
the k-th vertex of the output carries the attributes that the contraction
pass assigned to the k-th smallest fixed point. -/
theorem nerve_C2_contracted_vertex_set (mi : Int) (store : Bool) (X)
    (g : Graph)
    (hnd : ∀ l ∈ (nerveNodes X).map (fun t => t.2.2), l.Nodup)
    (hg : fitTransform mi store true X = some g) :
    ∃ fpm, fixedPoints
        (contractionMapping ((nerveNodes X).map (fun t => t.2.2)))
        (defaultFuel ((nerveNodes X).map (fun t => t.2.2))) = some fpm ∧
      g.numVertices = (survivors (nerveNodes X).length fpm).length ∧
      g.node_elements = (survivors (nerveNodes X).length fpm).map (fun p =>
        (contractVertices (nervePregraph mi store true X)
          fpm).node_elements.getD p none) ∧
      g.pullback_set_label = (survivors (nerveNodes X).length fpm).map
        (fun p => (contractVertices (nervePregraph mi store true X)
          fpm).pullback_set_label.getD p none) ∧
      g.partial_cluster_label = (survivors (nerveNodes X).length fpm).map
        (fun p => (contractVertices (nervePregraph mi store true X)
          fpm).partial_cluster_label.getD p none) := by
  have h : ¬ nerveNodes X = [] := by
    intro he
    rw [fitTransform_empty mi store true X he] at hg
    exact Option.noConfusion hg
  have hinv := contractionMapping_inv ((nerveNodes X).map (fun t => t.2.2)) hnd
  obtain ⟨fpm, hfpm, hfl, hfk⟩ := fixedPoints_spec hinv
  refine ⟨fpm, hfpm, ?_⟩
  rw [fitTransform_true_eq mi store X fpm h hfpm] at hg
  obtain rfl := (Option.some.inj hg).symm
  have hn : (nerveNodes X).length =
      ((nerveNodes X).map (fun t => t.2.2)).length := (List.length_map _ _).symm
  have hml : (contractionMapping ((nerveNodes X).map (fun t => t.2.2))).length =
      ((nerveNodes X).map (fun t => t.2.2)).length := hinv.1
  have hlen : fpm.length = (nerveNodes X).length := by rw [hfl, hml, ← hn]
  have hpos : 0 < (nerveNodes X).length := List.length_pos.mpr h
  have hent : ∀ x ∈ fpm, x < (nerveNodes X).length := by
    apply fpm_mem_lt hlen
    intro k hk
    have := (hfk k (by omega)).2.1
    omega
  have hkeep := contract_keep_eq_survivors hlen hpos hent
  refine ⟨?_, ?_, ?_, ?_⟩
  · show ((List.range _).filter _).length = _
    rw [contract_numVertices, hkeep]
  · show ((List.range _).filter _).map _ = _
    rw [contract_numVertices, hkeep]
  · show ((List.range _).filter _).map _ = _
    rw [contract_numVertices, hkeep]
  · show ((List.range _).filter _).map _ = _
    rw [contract_numVertices, hkeep]

theorem nerve_C2_contracted_vertex_set_witness :
    ∃ fpm, fixedPoints
        (contractionMapping ((nerveNodes
          [[(0, 0, [1, 2])], [(0, 1, [1, 2, 3])]]).map (fun t => t.2.2)))
        (defaultFuel ((nerveNodes
          [[(0, 0, [1, 2])], [(0, 1, [1, 2, 3])]]).map (fun t => t.2.2))) =
        some fpm ∧
      (⟨1, [some 0], [some 0], [some [1, 2]], []⟩ : Graph).numVertices =
        (survivors (nerveNodes
          [[(0, 0, [1, 2])], [(0, 1, [1, 2, 3])]]).length fpm).length ∧
      (⟨1, [some 0], [some 0], [some [1, 2]], []⟩ : Graph).node_elements =
        (survivors (nerveNodes
          [[(0, 0, [1, 2])], [(0, 1, [1, 2, 3])]]).length fpm).map (fun p =>
          (contractVertices (nervePregraph 1 false true
            [[(0, 0, [1, 2])], [(0, 1, [1, 2, 3])]])
            fpm).node_elements.getD p none) ∧
      (⟨1, [some 0], [some 0], [some [1, 2]], []⟩ : Graph).pullback_set_label =
        (survivors (nerveNodes
          [[(0, 0, [1, 2])], [(0, 1, [1, 2, 3])]]).length fpm).map (fun p =>
          (contractVertices (nervePregraph 1 false true
            [[(0, 0, [1, 2])], [(0, 1, [1, 2, 3])]])
            fpm).pullback_set_label.getD p none) ∧
      (⟨1, [some 0], [some 0], [some [1, 2]], []⟩ :
          Graph).partial_cluster_label =
        (survivors (nerveNodes
          [[(0, 0, [1, 2])], [(0, 1, [1, 2, 3])]]).length fpm).map (fun p =>
          (contractVertices (nervePregraph 1 false true
            [[(0, 0, [1, 2])], [(0, 1, [1, 2, 3])]])
            fpm).partial_cluster_label.getD p none) :=
  nerve_C2_contracted_vertex_set 1 false
    [[(0, 0, [1, 2])], [(0, 1, [1, 2, 3])]]
    ⟨1, [some 0], [some 0], [some [1, 2]], []⟩ (by decide) (by decide)

/-! ### Claim C4: edges between surviving vertices -/

theorem mapStep_length (pr) (m : List Nat) :
    (mapStep pr m).length = m.length := by
  unfold mapStep
  split_ifs <;> simp [List.length_set]

theorem foldl_mapStep_length (l : List ((Nat × List Nat) × (Nat × List Nat)))
    (m : List Nat) :
    (l.foldl (fun m pr => mapStep pr m) m).length = m.length := by
  induction l generalizing m with
  | nil => rfl
  | cons pr l ih => rw [List.foldl_cons, ih, mapStep_length]

/-- Once an index stores a non-identity entry, the rest of the scan can
never restore the identity there: every write stores the other index of a
pair `i < j`. -/
theorem foldl_mapStep_ne {x : Nat} :
    ∀ (l : List ((Nat × List Nat) × (Nat × List Nat))) (m : List Nat),
      (∀ pr ∈ l, pr.1.1 < pr.2.1) → x < m.length → ¬ m.getD x 0 = x →
      ¬ (l.foldl (fun m pr => mapStep pr m) m).getD x 0 = x := by
  intro l
  induction l with
  | nil => intro m _ _ h; exact h
  | cons pr l ih =>
    intro m hl hx h
    rw [List.foldl_cons]
    have hpr := hl pr (List.mem_cons_self _ _)
    refine ih _ (fun q hq => hl q (List.mem_cons_of_mem _ hq))
      (by rw [mapStep_length]; exact hx) ?_
    unfold mapStep
    split_ifs with h1 h2
    · by_cases hx2 : pr.2.1 = x
      · subst hx2
        rw [getD_set_self _ _ hx]
        omega
      · rw [getD_set_ne _ _ hx2]; exact h
    · by_cases hx1 : pr.1.1 = x
      · subst hx1
        rw [getD_set_self _ _ hx]
        omega
      · rw [getD_set_ne _ _ hx1]; exact h
    · exact h

theorem mapStep_branch1_getD {pr} {m : List Nat}
    (h1 : interSize pr = pr.2.2.length) (h : pr.2.1 < m.length) :
    (mapStep pr m).getD pr.2.1 0 = pr.1.1 := by
  unfold mapStep
  rw [if_pos h1]
  exact getD_set_self _ _ h

theorem mapStep_branch2_getD {pr} {m : List Nat}
    (h1 : ¬ interSize pr = pr.2.2.length)
    (h2 : interSize pr = pr.1.2.length) (h : pr.1.1 < m.length) :
    (mapStep pr m).getD pr.1.1 0 = pr.2.1 := by
  unfold mapStep
  rw [if_neg h1, if_pos h2]
  exact getD_set_self _ _ h

theorem scan_branch1_not_fixed {ne : List (List Nat)} {pr}
    (hpr : pr ∈ combinations2 (List.enum ne))
    (h1 : interSize pr = pr.2.2.length) :
    ¬ (contractionMapping ne).getD pr.2.1 0 = pr.2.1 := by
  obtain ⟨l1, l2, hsplit⟩ := List.append_of_mem hpr
  obtain ⟨hij, hjn, -, -⟩ := scan_pair_facts hpr
  unfold contractionMapping
  rw [hsplit, List.foldl_append, List.foldl_cons]
  have hm1len : (l1.foldl (fun m pr => mapStep pr m)
      (List.range ne.length)).length = ne.length := by
    rw [foldl_mapStep_length, List.length_range]
  refine foldl_mapStep_ne l2 _ (fun q hq => (scan_pair_facts (by
      rw [hsplit]
      exact List.mem_append_right _ (List.mem_cons_of_mem _ hq))).1)
    (by rw [mapStep_length]; omega) ?_
  have hstep : (mapStep pr (l1.foldl (fun m pr => mapStep pr m)
      (List.range ne.length))).getD pr.2.1 0 = pr.1.1 :=
    mapStep_branch1_getD h1 (by omega)
  rw [hstep]
  omega

theorem scan_branch2_not_fixed {ne : List (List Nat)} {pr}
    (hpr : pr ∈ combinations2 (List.enum ne))
    (h1 : ¬ interSize pr = pr.2.2.length)
    (h2 : interSize pr = pr.1.2.length) :
    ¬ (contractionMapping ne).getD pr.1.1 0 = pr.1.1 := by
  obtain ⟨l1, l2, hsplit⟩ := List.append_of_mem hpr
  obtain ⟨hij, hjn, -, -⟩ := scan_pair_facts hpr
  unfold contractionMapping
  rw [hsplit, List.foldl_append, List.foldl_cons]
  have hm1len : (l1.foldl (fun m pr => mapStep pr m)
      (List.range ne.length)).length = ne.length := by
    rw [foldl_mapStep_length, List.length_range]
  refine foldl_mapStep_ne l2 _ (fun q hq => (scan_pair_facts (by
      rw [hsplit]
      exact List.mem_append_right _ (List.mem_cons_of_mem _ hq))).1)
    (by rw [mapStep_length]; omega) ?_
  have hstep : (mapStep pr (l1.foldl (fun m pr => mapStep pr m)
      (List.range ne.length))).getD pr.1.1 0 = pr.2.1 :=
    mapStep_branch2_getD h1 h2 (by omega)
  rw [hstep]
  omega

/-- An index is a fixed point of the resolved mapping iff it is a fixed
point of the raw scan mapping. -/
theorem fpm_fixed_iff {ne : List (List Nat)} {m fpm : List Nat}
    (hinv : MappingInv ne m)
    (hfpm : fixedPoints m (defaultFuel ne) = some fpm) {k : Nat}
    (hk : k < m.length) : fpm.getD k 0 = k ↔ m.getD k 0 = k := by
  obtain ⟨fpm2, hf2, -, hk2⟩ := fixedPoints_spec hinv
  rw [hfpm] at hf2
  obtain rfl : fpm2 = fpm := Option.some.inj hf2.symm
  obtain ⟨hfix, -, t, ht⟩ := hk2 k hk
  constructor
  · intro h
    rw [h] at hfix
    exact hfix
  · intro h
    rw [ht, iterMap_fix_stable h t]

/-- Two distinct surviving (fixed-point) vertices never have nested-or-equal
element sets. -/
theorem fixed_pair_not_subset {ne : List (List Nat)}
    (hnd : ∀ l ∈ ne, l.Nodup) {p q : Nat} (hpq : p < q) (hq : q < ne.length)
    (hp : (contractionMapping ne).getD p 0 = p)
    (hqf : (contractionMapping ne).getD q 0 = q) :
    ¬ (ne.getD p []).toFinset ⊆ (ne.getD q []).toFinset ∧
      ¬ (ne.getD q []).toFinset ⊆ (ne.getD p []).toFinset := by
  have hpr := combinations2_enumFrom_complete (α := List Nat) [] ne 0 p q hpq hq
  simp only [Nat.zero_add] at hpr
  have hnd1 : (ne.getD p []).Nodup := hnd _ (getD_mem [] (by omega))
  have hnd2 : (ne.getD q []).Nodup := hnd _ (getD_mem [] hq)
  constructor
  · intro hsub
    by_cases h1 : interSize ((p, ne.getD p []), (q, ne.getD q [])) =
        ((p, ne.getD p []), (q, ne.getD q [])).2.2.length
    · exact scan_branch1_not_fixed hpr h1 hqf
    · have h2 : interSize ((p, ne.getD p []), (q, ne.getD q [])) =
          ((p, ne.getD p []), (q, ne.getD q [])).1.2.length :=
        (size_eq_left_iff hnd1).mpr hsub
      exact scan_branch2_not_fixed hpr h1 h2 hp
  · intro hsub
    exact scan_branch1_not_fixed hpr ((size_eq_right_iff hnd2).mpr hsub) hqf

/-- Membership in the edge list after contraction and deletion: each final
edge is an original edge with endpoints resolved through the mapping, both
resolved endpoints kept, and positions re-indexed into the keep list. -/
theorem delete_contract_edge_mem {G : Graph} {mp del : List Nat} {e : Edge} :
    e ∈ (deleteVertices (contractVertices G mp) del).edges ↔
      ∃ e0 ∈ G.edges,
        mp.getD e0.src 0 ∈
          (List.range (contractVertices G mp).numVertices).filter
            (fun i => decide (¬ i ∈ del)) ∧
        mp.getD e0.tgt 0 ∈
          (List.range (contractVertices G mp).numVertices).filter
            (fun i => decide (¬ i ∈ del)) ∧
        e = ⟨((List.range (contractVertices G mp).numVertices).filter
            (fun i => decide (¬ i ∈ del))).indexOf (mp.getD e0.src 0),
          ((List.range (contractVertices G mp).numVertices).filter
            (fun i => decide (¬ i ∈ del))).indexOf (mp.getD e0.tgt 0),
          e0.weight, e0.edge_elements⟩ := by
  constructor
  · intro he
    obtain ⟨e1, he1, rfl⟩ := List.mem_map.mp he
    obtain ⟨he1m, hpk⟩ := List.mem_filter.mp he1
    obtain ⟨e0, he0, rfl⟩ := List.mem_map.mp he1m
    rw [Bool.and_eq_true, decide_eq_true_eq, decide_eq_true_eq] at hpk
    exact ⟨e0, he0, hpk.1, hpk.2, rfl⟩
  · rintro ⟨e0, he0, hsk, htk, rfl⟩
    apply List.mem_map.mpr
    refine ⟨{ e0 with src := mp.getD e0.src 0, tgt := mp.getD e0.tgt 0 },
      List.mem_filter.mpr ⟨List.mem_map.mpr ⟨e0, he0, rfl⟩, ?_⟩, rfl⟩
    rw [Bool.and_eq_true, decide_eq_true_eq, decide_eq_true_eq]
    exact ⟨hsk, htk⟩

theorem mem_survivors {n : Nat} {fpm : List Nat} {v : Nat} :
    v ∈ survivors n fpm ↔ v < n ∧ fpm.getD v 0 = v := by
  unfold survivors
  rw [List.mem_filter, List.mem_range, decide_eq_true_eq]

/-- C4 amended: with `contract_nodes = True` and duplicate-free
`node_elements`, for any two surviving vertices (fixed points `p < q` of the
resolved mapping), the returned graph has an edge between their re-indexed
positions iff the ORIGINAL (pre-contraction) element sets of `p` and `q`
intersect in at least `min_intersection` elements and neither is a strict
subset of the other.  (The claim as stated, reading `node_elements` as the
returned vertices' attributes, is false: `combine_attrs="first"` can hand a
surviving vertex the attributes of a smaller merged-in vertex; see the
counterexample.) -/
theorem nerve_C4_amended (mi : Int) (store : Bool) (X) (g : Graph)
    (fpm : List Nat)
    (hnd : ∀ l ∈ (nerveNodes X).map (fun t => t.2.2), l.Nodup)
    (hg : fitTransform mi store true X = some g)
    (hfpm : fixedPoints
      (contractionMapping ((nerveNodes X).map (fun t => t.2.2)))
      (defaultFuel ((nerveNodes X).map (fun t => t.2.2))) = some fpm)
    (p q : Nat) (hpq : p < q) (hq : q < (nerveNodes X).length)
    (hp : fpm.getD p 0 = p) (hqf : fpm.getD q 0 = q) :
    (∃ e ∈ g.edges,
        (e.src = ((survivors (nerveNodes X).length fpm).indexOf p) ∧
          e.tgt = ((survivors (nerveNodes X).length fpm).indexOf q)) ∨
        (e.src = ((survivors (nerveNodes X).length fpm).indexOf q) ∧
          e.tgt = ((survivors (nerveNodes X).length fpm).indexOf p))) ↔
      (mi ≤ (((((nerveNodes X).map (fun t => t.2.2)).getD p []).toFinset ∩
          ((((nerveNodes X).map (fun t => t.2.2)).getD q []).toFinset)).card : Int) ∧
        ¬ (((nerveNodes X).map (fun t => t.2.2)).getD p []).toFinset ⊂
          (((nerveNodes X).map (fun t => t.2.2)).getD q []).toFinset ∧
        ¬ (((nerveNodes X).map (fun t => t.2.2)).getD q []).toFinset ⊂
          (((nerveNodes X).map (fun t => t.2.2)).getD p []).toFinset) := by
  have h : ¬ nerveNodes X = [] := by
    intro he
    rw [fitTransform_empty mi store true X he] at hg
    exact Option.noConfusion hg
  set ne : List (List Nat) := (nerveNodes X).map (fun t => t.2.2) with hne
  set n : Nat := (nerveNodes X).length with hn
  have hnen : ne.length = n := by rw [hne, hn]; exact List.length_map _ _
  have hinv := contractionMapping_inv ne hnd
  have hml : (contractionMapping ne).length = ne.length := hinv.1
  obtain ⟨fpm2, hf2, hfl, hfk⟩ := fixedPoints_spec hinv
  rw [hfpm] at hf2
  obtain rfl : fpm = fpm2 := Option.some.inj hf2
  have hlen : fpm.length = n := by rw [hfl, hml, hnen]
  have hpos : 0 < n := by
    rw [hn]
    exact List.length_pos.mpr h
  have hpn : p < n := by omega
  have hqn : q < n := hq
  have hpm : (contractionMapping ne).getD p 0 = p :=
    (fpm_fixed_iff hinv hfpm (by omega)).mp hp
  have hqm : (contractionMapping ne).getD q 0 = q :=
    (fpm_fixed_iff hinv hfpm (by omega)).mp hqf
  have hnsub := fixed_pair_not_subset hnd hpq (by omega) hpm hqm
  have hent : ∀ x ∈ fpm, x < n := by
    apply fpm_mem_lt hlen
    intro k hk
    have := (hfk k (by omega)).2.1
    omega
  have hkeep0 := contract_keep_eq_survivors hlen hpos hent
  rw [fitTransform_true_eq mi store X fpm h hfpm] at hg
  obtain rfl : g = _ := (Option.some.inj hg).symm
  have hkeq : (List.range (contractVertices (nervePregraph mi store true X)
      fpm).numVertices).filter
      (fun i => decide (¬ i ∈ (List.range (contractVertices (nervePregraph
        mi store true X) fpm).numVertices).filter
        (fun i => decide (¬ i = fpm.getD i 0)))) = survivors n fpm := by
    rw [contract_numVertices]
    exact hkeep0
  have hpmem : p ∈ survivors n fpm := mem_survivors.mpr ⟨hpn, hp⟩
  have hqmem : q ∈ survivors n fpm := mem_survivors.mpr ⟨hqn, hqf⟩
  constructor
  · rintro ⟨e, he, hor⟩
    rw [delete_contract_edge_mem] at he
    obtain ⟨e0, he0, hsk, htk, rfl⟩ := he
    rw [hkeq] at hsk htk hor
    obtain ⟨pr, hpr, hkp, he0eq⟩ := pregraph_edge_mem he0
    have hesrc : e0.src = pr.1.1 := by rw [he0eq]
    have hetgt : e0.tgt = pr.2.1 := by rw [he0eq]
    obtain ⟨hab, hbn, -, -⟩ := scan_pair_facts hpr
    have hbn2 : pr.2.1 < ne.length := hbn
    have hsrcb : e0.src < (contractionMapping ne).length := by
      rw [hesrc, hml]
      omega
    have htgtb : e0.tgt < (contractionMapping ne).length := by
      rw [hetgt, hml]
      omega
    have hsub1 : (ne.getD e0.src []).toFinset ⊆
        (ne.getD (fpm.getD e0.src 0) []).toFinset := by
      obtain ⟨-, -, t, ht⟩ := hfk e0.src hsrcb
      rw [ht]
      exact iterMap_subset hinv t hsrcb
    have hsub2 : (ne.getD e0.tgt []).toFinset ⊆
        (ne.getD (fpm.getD e0.tgt 0) []).toFinset := by
      obtain ⟨-, -, t, ht⟩ := hfk e0.tgt htgtb
      rw [ht]
      exact iterMap_subset hinv t htgtb
    unfold edgeKeep at hkp
    simp only [if_true, Bool.and_eq_true, decide_eq_true_eq] at hkp
    obtain ⟨-, -, h3⟩ := hkp
    have hsize : interSize pr = ((ne.getD e0.src []).toFinset ∩
        (ne.getD e0.tgt []).toFinset).card := by
      rw [hesrc, hetgt]
      exact interSize_eq_card hpr
    refine ⟨?_, fun hss => hnsub.1 (le_of_lt hss),
      fun hss => hnsub.2 (le_of_lt hss)⟩
    rcases hor with ⟨hs, ht2⟩ | ⟨hs, ht2⟩
    · have hep : fpm.getD e0.src 0 = p := (List.indexOf_inj hsk hpmem).mp hs
      have heq2 : fpm.getD e0.tgt 0 = q := (List.indexOf_inj htk hqmem).mp ht2
      rw [hep] at hsub1
      rw [heq2] at hsub2
      have hcard : ((ne.getD e0.src []).toFinset ∩
          (ne.getD e0.tgt []).toFinset).card ≤
          ((ne.getD p []).toFinset ∩ (ne.getD q []).toFinset).card :=
        Finset.card_le_card (Finset.inter_subset_inter hsub1 hsub2)
      rw [hsize] at h3
      calc mi ≤ (((ne.getD e0.src []).toFinset ∩
              (ne.getD e0.tgt []).toFinset).card : Int) := h3
        _ ≤ _ := by exact_mod_cast hcard
    · have hep : fpm.getD e0.src 0 = q := (List.indexOf_inj hsk hqmem).mp hs
      have heq2 : fpm.getD e0.tgt 0 = p := (List.indexOf_inj htk hpmem).mp ht2
      rw [hep] at hsub1
      rw [heq2] at hsub2
      have hcard : ((ne.getD e0.src []).toFinset ∩
          (ne.getD e0.tgt []).toFinset).card ≤
          ((ne.getD p []).toFinset ∩ (ne.getD q []).toFinset).card := by
        rw [Finset.inter_comm ((ne.getD p []).toFinset)
          ((ne.getD q []).toFinset)]
        exact Finset.card_le_card (Finset.inter_subset_inter hsub1 hsub2)
      rw [hsize] at h3
      calc mi ≤ (((ne.getD e0.src []).toFinset ∩
              (ne.getD e0.tgt []).toFinset).card : Int) := h3
        _ ≤ _ := by exact_mod_cast hcard
  · rintro ⟨hthr, -, -⟩
    have hprq := combinations2_enumFrom_complete (α := List Nat) [] ne 0 p q
      hpq (by omega)
    simp only [Nat.zero_add] at hprq
    have hnd1 : (ne.getD p []).Nodup := hnd _ (getD_mem [] (by omega))
    have hnd2 : (ne.getD q []).Nodup := hnd _ (getD_mem [] (by omega))
    have hkeepB : edgeKeep mi true ((p, ne.getD p []), (q, ne.getD q [])) =
        true := by
      unfold edgeKeep
      simp only [if_true, Bool.and_eq_true, decide_eq_true_eq]
      refine ⟨?_, ?_, ?_⟩
      · intro hsz
        exact hnsub.2 ((size_eq_right_iff hnd2).mp hsz)
      · intro hsz
        exact hnsub.1 ((size_eq_left_iff hnd1).mp hsz)
      · rw [interSize_eq_card hprq]
        exact hthr
    refine ⟨⟨(survivors n fpm).indexOf p, (survivors n fpm).indexOf q,
      interSize ((p, ne.getD p []), (q, ne.getD q [])),
      if store then some (interList ((p, ne.getD p []), (q, ne.getD q [])))
        else none⟩, ?_, Or.inl ⟨rfl, rfl⟩⟩
    rw [delete_contract_edge_mem]
    refine ⟨⟨p, q, interSize ((p, ne.getD p []), (q, ne.getD q [])),
      if store then some (interList ((p, ne.getD p []), (q, ne.getD q [])))
        else none⟩, pregraph_edge_of_keep hprq hkeepB, ?_, ?_, ?_⟩
    · rw [hkeq]
      show fpm.getD p 0 ∈ survivors n fpm
      rw [hp]
      exact hpmem
    · rw [hkeq]
      show fpm.getD q 0 ∈ survivors n fpm
      rw [hqf]
      exact hqmem
    · rw [hkeq]
      show _ = (⟨(survivors n fpm).indexOf (fpm.getD p 0),
        (survivors n fpm).indexOf (fpm.getD q 0), _, _⟩ : Edge)
      rw [hp, hqf]

/-- C4 counterexample: on the cover
`[[(0,0,[1]),(0,1,[2])],[(1,0,[1,5]),(1,1,[2,5])]]` with
`contract_nodes = True` and `min_intersection = 1`, the returned graph has
two vertices whose `node_elements` attributes are `[1]` and `[2]` (assigned
by `combine_attrs="first"` from the smaller merged-in vertices 0 and 1), and
an edge between them — although those two attribute sets are disjoint, so
their intersection size `0` is below `min_intersection`.  This refutes the
claim read over the returned vertices' `node_elements`. -/
theorem nerve_C4_counterexample :
    fitTransform 1 false true
      [[(0, 0, [1]), (0, 1, [2])], [(1, 0, [1, 5]), (1, 1, [2, 5])]] =
      some ⟨2, [some 0, some 0], [some 0, some 1], [some [1], some [2]],
        [⟨0, 1, 1, none⟩]⟩ ∧
      (((([1] : List Nat).toFinset ∩
        ([2] : List Nat).toFinset).card : Int) < 1) := by
  exact ⟨by decide, by decide⟩

theorem nerve_C4_amended_witness :
    (∃ e ∈ (⟨2, [some 0, some 0], [some 0, some 1],
        [some [1], some [2]], [⟨0, 1, 1, none⟩]⟩ : Graph).edges,
        (e.src = ((survivors (nerveNodes
          [[(0, 0, [1]), (0, 1, [2])],
            [(1, 0, [1, 5]), (1, 1, [2, 5])]]).length
          [2, 3, 2, 3]).indexOf 2) ∧
          e.tgt = ((survivors (nerveNodes
            [[(0, 0, [1]), (0, 1, [2])],
              [(1, 0, [1, 5]), (1, 1, [2, 5])]]).length
            [2, 3, 2, 3]).indexOf 3)) ∨
        (e.src = ((survivors (nerveNodes
          [[(0, 0, [1]), (0, 1, [2])],
            [(1, 0, [1, 5]), (1, 1, [2, 5])]]).length
          [2, 3, 2, 3]).indexOf 3) ∧
          e.tgt = ((survivors (nerveNodes
            [[(0, 0, [1]), (0, 1, [2])],
              [(1, 0, [1, 5]), (1, 1, [2, 5])]]).length
            [2, 3, 2, 3]).indexOf 2))) ↔
      ((1 : Int) ≤ (((((nerveNodes
          [[(0, 0, [1]), (0, 1, [2])],
            [(1, 0, [1, 5]), (1, 1, [2, 5])]]).map
          (fun t => t.2.2)).getD 2 []).toFinset ∩
        ((((nerveNodes
          [[(0, 0, [1]), (0, 1, [2])],
            [(1, 0, [1, 5]), (1, 1, [2, 5])]]).map
          (fun t => t.2.2)).getD 3 []).toFinset)).card : Int) ∧
        ¬ (((nerveNodes
          [[(0, 0, [1]), (0, 1, [2])],
            [(1, 0, [1, 5]), (1, 1, [2, 5])]]).map
          (fun t => t.2.2)).getD 2 []).toFinset ⊂
          (((nerveNodes
            [[(0, 0, [1]), (0, 1, [2])],
              [(1, 0, [1, 5]), (1, 1, [2, 5])]]).map
            (fun t => t.2.2)).getD 3 []).toFinset ∧
        ¬ (((nerveNodes
          [[(0, 0, [1]), (0, 1, [2])],
            [(1, 0, [1, 5]), (1, 1, [2, 5])]]).map
          (fun t => t.2.2)).getD 3 []).toFinset ⊂
          (((nerveNodes
            [[(0, 0, [1]), (0, 1, [2])],
              [(1, 0, [1, 5]), (1, 1, [2, 5])]]).map
            (fun t => t.2.2)).getD 2 []).toFinset) :=
  nerve_C4_amended 1 false
    [[(0, 0, [1]), (0, 1, [2])], [(1, 0, [1, 5]), (1, 1, [2, 5])]]
    ⟨2, [some 0, some 0], [some 0, some 1], [some [1], some [2]],
      [⟨0, 1, 1, none⟩]⟩
    [2, 3, 2, 3] (by decide) (by decide) (by decide) 2 3 (by decide)
    (by decide) (by decide) (by decide)

end Nerve
